import Mathlib

/-!
Verification of advanced-mark.js (mark.js fork) against its natural-language
specification.  The JavaScript sources are shallowly embedded: strings are
`List Char`, DOM-text-node bookkeeping records (`start`/`end`/`offset`) become
a `Frag` structure, the mutable `dict` of the wrap engine becomes explicit
state passing, and `regex.lastIndex = Infinity` is `⊤ : WithTop ℕ`.
-/

namespace MarkJS

/-! ## C1: setLastIndex (zero-length-match forward progress) -/

/-- Embedding of `Mark.setLastIndex(regex, end)` (src/dist/mark.umd.js:1093-1101).
The JS cursor `regex.lastIndex` is a natural number; assigning `Infinity` is
modelled as `⊤ : WithTop ℕ`.  The argument `end_` is the text position at which
processing of the zero-length match ended. -/
def setLastIndex (lastIndex : ℕ) (end_ : ℕ) : WithTop ℕ :=
  if end_ > lastIndex then (end_ : WithTop ℕ)
  else if end_ > 0 then ((lastIndex + 1 : ℕ) : WithTop ℕ)
  else ⊤

/-- C1: for every zero-length match whose processing ends at `end_`, the cursor
update sets the next search position to `end_` when `end_` exceeds the current
cursor, otherwise advances the cursor by exactly one when `end_ > 0`, and
otherwise sets the cursor past end-of-text (`Infinity`); in all cases the
cursor strictly advances, guaranteeing termination. -/
theorem setLastIndex_spec (li e : ℕ) :
    (e > li → setLastIndex li e = (e : WithTop ℕ)) ∧
    (e ≤ li → e > 0 → setLastIndex li e = ((li + 1 : ℕ) : WithTop ℕ)) ∧
    (e = 0 → setLastIndex li e = ⊤) ∧
    (li : WithTop ℕ) < setLastIndex li e := by
  unfold setLastIndex
  refine ⟨?_, ?_, ?_, ?_⟩
  · intro h; simp [h]
  · intro h1 h2; rw [if_neg (by omega), if_pos h2]
  · intro h; subst h; simp
  · by_cases h : e > li
    · rw [if_pos h]; exact_mod_cast h
    · rw [if_neg h]
      by_cases h2 : e > 0
      · rw [if_pos h2]; exact_mod_cast Nat.lt_succ_self li
      · rw [if_neg h2]; exact WithTop.coe_lt_top li

/-- Closed witness for C1 at concrete inputs. -/
theorem setLastIndex_spec_witness :
    setLastIndex 3 0 = ⊤ ∧ (3 : WithTop ℕ) < setLastIndex 3 0 :=
  ⟨(setLastIndex_spec 3 0).2.2.1 rfl, (setLastIndex_spec 3 0).2.2.2⟩

/-! ## Shared: regex-metacharacter escaping (RegExpCreator.escapeStr) -/

/-- The metacharacter set of `escapeStr`'s regex `[\-\[\]\/\{\}\(\)\*\+\?\.\\\^\$\|]`. -/
def regexMetaChars : List Char :=
  ['-', '[', ']', '/', '\x7b', '\x7d', '(', ')', '*', '+', '?', '.', '\\', '^', '$', '|']

/-- Embedding of `RegExpCreator.escapeStr` (src/dist/mark.umd.js:408-410):
prepend a backslash to every regex metacharacter. -/
def escapeStr (l : List Char) : List Char :=
  l.flatMap (fun c => if c ∈ regexMetaChars then ['\\', c] else [c])

/-! ## C9: accuracy wrapping and final flags -/

/-- A decomposed lookbehind/body/lookahead triple (`RegExpCreator~patternObj`). -/
structure PatternParts where
  lookbehind : List Char
  pattern : List Char
  lookahead : List Char
deriving DecidableEq

/-- The punctuation constant `chars` of `createAccuracyRegExp`. -/
def accuracyChars : List Char :=
  "!\"#$%&'()*+,-./:;<=>?@[\\]^_`\x7b|\x7d~¡¿".toList

/-- Embedding of `RegExpCreator.createAccuracyRegExp(str, true)`
(src/dist/mark.umd.js:495-525), the branch returning the parts object.
`accVal` is the accuracy value string, `limiters` the custom limiter list
(empty when the accuracy option is a plain string, as for `'partially'`). -/
def createAccuracyParts (accVal : String) (limiters : List (List Char))
    (str : List Char) : PatternParts :=
  let lsJoin := limiters.foldl (fun acc l => acc ++ '|' :: escapeStr l) []
  if accVal = "complementary" then
    let cls := '\\' :: 's' :: (if lsJoin = [] then escapeStr accuracyChars else lsJoin)
    ⟨"()".toList,
     ('[' :: '^' :: cls ++ [']', '*']) ++ str ++ ('[' :: '^' :: cls ++ [']', '*']),
     []⟩
  else if accVal = "exactly" then
    ⟨'(' :: '^' :: '|' :: '\\' :: 's' :: lsJoin ++ [')'],
     str,
     "(?=$|\\s".toList ++ lsJoin ++ [')']⟩
  else
    ⟨"()".toList, str, []⟩

/-- Embedding of `createAccuracyRegExp(str, false)`: the assembled whole
pattern `lookbehind(pattern)lookahead`. -/
def createAccuracyWhole (accVal : String) (limiters : List (List Char))
    (str : List Char) : List Char :=
  let p := createAccuracyParts accVal limiters str
  p.lookbehind ++ '(' :: (p.pattern ++ ')' :: p.lookahead)

/-- Embedding of the flag assembly in `RegExpCreator.create`
(src/dist/mark.umd.js:388): `gm` plus `i` unless case sensitive. -/
def createFlags (caseSensitive : Bool) : List Char :=
  "gm".toList ++ (if caseSensitive then [] else ['i'])

/-- C9: with accuracy `'partially'` the parts are an empty capturing-group
lookbehind `()`, the unchanged body, and an empty lookahead; the whole pattern
is `()` followed by the body wrapped in a capturing group; and the flags are
`gm` plus `i` exactly when `caseSensitive` is false. -/
theorem accuracy_partially_spec (str : List Char) (cs : Bool) :
    createAccuracyParts "partially" [] str = ⟨"()".toList, str, []⟩ ∧
    createAccuracyWhole "partially" [] str = "()(".toList ++ str ++ [')'] ∧
    ('i' ∈ createFlags cs ↔ cs = false) ∧
    createFlags cs = (if cs then "gm" else "gmi").toList := by
  refine ⟨rfl, by simp [createAccuracyWhole, createAccuracyParts], ?_, ?_⟩
  · cases cs <;> simp [createFlags]
  · cases cs <;> rfl

/-! ## C8: wildcard placeholding -/

/-- Strip a leading run of backslashes. -/
def dropBsRun : List Char → List Char
  | [] => []
  | c :: r => if c = '\\' then dropBsRun r else c :: r

theorem dropBsRun_length_le (l : List Char) : (dropBsRun l).length ≤ l.length := by
  induction l with
  | nil => simp [dropBsRun]
  | cons c r ih =>
    rw [dropBsRun]
    split
    · exact Nat.le_succ_of_le ih
    · exact le_refl _

theorem dropBsRun_tail_lt (l : List Char) : (dropBsRun l).tail.length < l.length + 1 := by
  have h1 := dropBsRun_length_le l
  have h2 : (dropBsRun l).tail.length ≤ (dropBsRun l).length := by
    simp [List.length_tail]
  omega

theorem dropBsRun_replicate_append (k : ℕ) (r : List Char) :
    dropBsRun (List.replicate k '\\' ++ r) = dropBsRun r := by
  induction k with
  | zero => simp
  | succ n ih => rw [List.replicate_succ, List.cons_append, dropBsRun, if_pos rfl, ih]

theorem dropBsRun_cons_ne (c : Char) (t : List Char) (hc : c ≠ '\\') :
    dropBsRun (c :: t) = c :: t := by
  rw [dropBsRun, if_neg hc]

theorem dropBsRun_replicate_cons (k : ℕ) (c : Char) (t : List Char) (hc : c ≠ '\\') :
    dropBsRun (List.replicate k '\\' ++ c :: t) = c :: t := by
  rw [dropBsRun_replicate_append, dropBsRun, if_neg hc]

theorem dropBsRun_head_ne_bs (l : List Char) : (dropBsRun l).head? ≠ some '\\' := by
  induction l with
  | nil => simp [dropBsRun]
  | cons c r ih =>
    rw [dropBsRun]
    split
    · exact ih
    · next h => simp [h]

theorem dropBsRun_decomp (l : List Char) :
    ∃ k, l = List.replicate k '\\' ++ dropBsRun l := by
  induction l with
  | nil => exact ⟨0, rfl⟩
  | cons c r ih =>
    rw [dropBsRun]
    split
    · next h =>
      obtain ⟨k, hk⟩ := ih
      exact ⟨k + 1, by rw [List.replicate_succ, List.cons_append, h, ← hk]⟩
    · exact ⟨0, rfl⟩

/-- Embedding of one global-replace pass of
`RegExpCreator.setupWildcardsRegExp` (src/dist/mark.umd.js:433-440):
`str.replace` with the pattern "a maximal backslash run followed by the
wildcard w"; when the run is non-empty the whole match is replaced by the
literal wildcard, otherwise by the private marker `m`. -/
def replaceWild (w m : Char) : List Char → List Char
  | [] => []
  | c :: rest =>
    if c = w then m :: replaceWild w m rest
    else if c = '\\' ∧ (dropBsRun rest).head? = some w then
      w :: replaceWild w m (dropBsRun rest).tail
    else c :: replaceWild w m rest
termination_by l => l.length
decreasing_by
  all_goals simp only [List.length_cons]
  · omega
  · exact dropBsRun_tail_lt _
  · omega

/-- Embedding of `RegExpCreator.setupWildcardsRegExp`: first the `?` pass
(marker U+0001), then the `*` pass (marker U+0002) on its output. -/
def setupWildcardsRegExp (l : List Char) : List Char :=
  replaceWild '*' '\x02' (replaceWild '?' '\x01' l)

theorem replaceWild_nil (w m : Char) : replaceWild w m [] = [] := by
  rw [replaceWild]

theorem replaceWild_cons (w m c : Char) (rest : List Char) :
    replaceWild w m (c :: rest) =
      if c = w then m :: replaceWild w m rest
      else if c = '\\' ∧ (dropBsRun rest).head? = some w then
        w :: replaceWild w m (dropBsRun rest).tail
      else c :: replaceWild w m rest := by
  rw [replaceWild]

theorem replaceWild_run_skip (w m : Char) (hw : w ≠ '\\') (k : ℕ) (r : List Char)
    (hr : (dropBsRun r).head? ≠ some w) :
    replaceWild w m (List.replicate k '\\' ++ r) =
      List.replicate k '\\' ++ replaceWild w m r := by
  induction k with
  | zero => simp
  | succ n ih =>
    rw [List.replicate_succ, List.cons_append, replaceWild_cons]
    rw [if_neg (fun h => hw h.symm)]
    rw [if_neg (by rw [dropBsRun_replicate_append]; exact fun h => hr h.2)]
    rw [ih]
    simp

theorem replaceWild_run_hit (w m : Char) (hw : w ≠ '\\') (k : ℕ) (r : List Char) :
    replaceWild w m (List.replicate (k + 1) '\\' ++ w :: r) = w :: replaceWild w m r := by
  rw [List.replicate_succ, List.cons_append, replaceWild_cons]
  rw [if_neg (fun h => hw h.symm)]
  have hdrop : dropBsRun (List.replicate k '\\' ++ w :: r) = w :: r :=
    dropBsRun_replicate_cons k w r hw
  rw [if_pos ⟨rfl, by rw [hdrop]; rfl⟩, hdrop]
  rfl

theorem replaceWild_replicate (w m : Char) (hw : w ≠ '\\') (k : ℕ) :
    replaceWild w m (List.replicate k '\\') = List.replicate k '\\' := by
  have h := replaceWild_run_skip w m hw k [] (by simp [dropBsRun])
  rw [List.append_nil, replaceWild_nil, List.append_nil] at h
  exact h

/-- Modelled from the claim (C8), for refutation: scanning left to right,
an escaped wildcard pair is restored to the literal character, every other
escape pair passes through untouched, and a wildcard not consumed by an
escape pair becomes its private marker. -/
def setupWildcardsClaim : List Char → List Char
  | [] => []
  | '\\' :: '?' :: r => '?' :: setupWildcardsClaim r
  | '\\' :: '*' :: r => '*' :: setupWildcardsClaim r
  | '\\' :: c :: r => '\\' :: c :: setupWildcardsClaim r
  | '?' :: r => '\x01' :: setupWildcardsClaim r
  | '*' :: r => '\x02' :: setupWildcardsClaim r
  | c :: r => c :: setupWildcardsClaim r

/-- The amended description of the wildcard placeholding stage: one scan in
which a wildcard preceded by no backslash becomes its private marker, and a
wildcard preceded by one or more backslashes is replaced, together with the
whole preceding backslash run, by the literal wildcard character. -/
def wildcardsAmended : List Char → List Char
  | [] => []
  | c :: rest =>
    if c = '?' then '\x01' :: wildcardsAmended rest
    else if c = '*' then '\x02' :: wildcardsAmended rest
    else if c = '\\' ∧ (dropBsRun rest).head? = some '?' then
      '?' :: wildcardsAmended (dropBsRun rest).tail
    else if c = '\\' ∧ (dropBsRun rest).head? = some '*' then
      '*' :: wildcardsAmended (dropBsRun rest).tail
    else c :: wildcardsAmended rest
termination_by l => l.length
decreasing_by
  all_goals simp only [List.length_cons]
  · omega
  · omega
  · exact dropBsRun_tail_lt _
  · exact dropBsRun_tail_lt _
  · omega

theorem wildcardsAmended_nil : wildcardsAmended [] = [] := by
  rw [wildcardsAmended]

theorem wildcardsAmended_cons (c : Char) (rest : List Char) :
    wildcardsAmended (c :: rest) =
      if c = '?' then '\x01' :: wildcardsAmended rest
      else if c = '*' then '\x02' :: wildcardsAmended rest
      else if c = '\\' ∧ (dropBsRun rest).head? = some '?' then
        '?' :: wildcardsAmended (dropBsRun rest).tail
      else if c = '\\' ∧ (dropBsRun rest).head? = some '*' then
        '*' :: wildcardsAmended (dropBsRun rest).tail
      else c :: wildcardsAmended rest := by
  rw [wildcardsAmended]

theorem wildcardsAmended_run_skip (k : ℕ) (r : List Char)
    (h1 : (dropBsRun r).head? ≠ some '?') (h2 : (dropBsRun r).head? ≠ some '*') :
    wildcardsAmended (List.replicate k '\\' ++ r) =
      List.replicate k '\\' ++ wildcardsAmended r := by
  induction k with
  | zero => simp
  | succ n ih =>
    rw [List.replicate_succ, List.cons_append, wildcardsAmended_cons]
    rw [if_neg (by decide), if_neg (by decide)]
    rw [if_neg (by rw [dropBsRun_replicate_append]; exact fun h => h1 h.2)]
    rw [if_neg (by rw [dropBsRun_replicate_append]; exact fun h => h2 h.2)]
    rw [ih]
    simp

theorem setupWildcards_nil : setupWildcardsRegExp [] = [] := by
  simp only [setupWildcardsRegExp, replaceWild_nil]

theorem setupWildcards_plain (c : Char) (r : List Char)
    (hq : c ≠ '?') (hs : c ≠ '*') (hb : c ≠ '\\') :
    setupWildcardsRegExp (c :: r) = c :: setupWildcardsRegExp r := by
  simp only [setupWildcardsRegExp]
  rw [replaceWild_cons, if_neg hq, if_neg (fun h => hb h.1),
    replaceWild_cons, if_neg hs, if_neg (fun h => hb h.1)]

theorem setupWildcards_q (r : List Char) :
    setupWildcardsRegExp ('?' :: r) = '\x01' :: setupWildcardsRegExp r := by
  simp only [setupWildcardsRegExp]
  rw [replaceWild_cons, if_pos rfl, replaceWild_cons, if_neg (by decide),
    if_neg (fun h => absurd h.1 (by decide))]

theorem setupWildcards_s (r : List Char) :
    setupWildcardsRegExp ('*' :: r) = '\x02' :: setupWildcardsRegExp r := by
  simp only [setupWildcardsRegExp]
  rw [replaceWild_cons, if_neg (by decide), if_neg (fun h => absurd h.1 (by decide)),
    replaceWild_cons, if_pos rfl]

theorem setupWildcards_run_q (k : ℕ) (t : List Char) :
    setupWildcardsRegExp (List.replicate (k + 1) '\\' ++ '?' :: t) =
      '?' :: setupWildcardsRegExp t := by
  simp only [setupWildcardsRegExp]
  rw [replaceWild_run_hit '?' '\x01' (by decide), replaceWild_cons, if_neg (by decide),
    if_neg (fun h => absurd h.1 (by decide))]

theorem setupWildcards_run_s (k : ℕ) (t : List Char) :
    setupWildcardsRegExp (List.replicate (k + 1) '\\' ++ '*' :: t) =
      '*' :: setupWildcardsRegExp t := by
  simp only [setupWildcardsRegExp]
  rw [replaceWild_run_skip '?' '\x01' (by decide) (k + 1) ('*' :: t)
    (by rw [dropBsRun_cons_ne _ _ (by decide)]; simp)]
  rw [replaceWild_cons, if_neg (by decide), if_neg (fun h => absurd h.1 (by decide))]
  rw [replaceWild_run_hit '*' '\x02' (by decide)]

theorem setupWildcards_run_other (k : ℕ) (c : Char) (t : List Char)
    (hq : c ≠ '?') (hs : c ≠ '*') (hb : c ≠ '\\') :
    setupWildcardsRegExp (List.replicate (k + 1) '\\' ++ c :: t) =
      List.replicate (k + 1) '\\' ++ c :: setupWildcardsRegExp t := by
  simp only [setupWildcardsRegExp]
  rw [replaceWild_run_skip '?' '\x01' (by decide) (k + 1) (c :: t)
    (by rw [dropBsRun, if_neg hb]; simp [hq])]
  rw [replaceWild_cons, if_neg hq, if_neg (fun h => hb h.1)]
  rw [replaceWild_run_skip '*' '\x02' (by decide) (k + 1) (c :: replaceWild '?' '\x01' t)
    (by rw [dropBsRun, if_neg hb]; simp [hs])]
  rw [replaceWild_cons, if_neg hs, if_neg (fun h => hb h.1)]

theorem setupWildcards_run_nil (k : ℕ) :
    setupWildcardsRegExp (List.replicate k '\\') = List.replicate k '\\' := by
  simp only [setupWildcardsRegExp]
  rw [replaceWild_replicate '?' '\x01' (by decide), replaceWild_replicate '*' '\x02' (by decide)]

/-- C8 counterexample: on the term consisting of an escaped backslash followed
by `?`, the code collapses the whole backslash run and yields the single
literal character `?`, while the claim's reading keeps the escape pair and
turns the unescaped `?` into the marker U+0001. -/
theorem setupWildcards_claim_counterexample :
    setupWildcardsRegExp ['\\', '\\', '?'] = ['?'] ∧
    setupWildcardsClaim ['\\', '\\', '?'] = ['\\', '\\', '\x01'] ∧
    setupWildcardsRegExp ['\\', '\\', '?'] ≠ setupWildcardsClaim ['\\', '\\', '?'] := by
  have h1 : setupWildcardsRegExp ['\\', '\\', '?'] = ['?'] := by
    have := setupWildcards_run_q 1 []
    simpa [List.replicate, setupWildcards_nil] using this
  refine ⟨h1, by simp [setupWildcardsClaim], by rw [h1]; simp [setupWildcardsClaim]⟩

/-- C8 amended: the wildcard placeholding stage coincides with
`wildcardsAmended` on every input string. -/
theorem setupWildcards_amended_spec (l : List Char) :
    setupWildcardsRegExp l = wildcardsAmended l := by
  suffices h : ∀ n (l : List Char), l.length ≤ n →
      setupWildcardsRegExp l = wildcardsAmended l from h l.length l (le_refl _)
  intro n
  induction n with
  | zero =>
    intro l hl
    have : l = [] := List.length_eq_zero.mp (Nat.le_zero.mp hl)
    subst this
    rw [setupWildcards_nil, wildcardsAmended_nil]
  | succ n ih =>
    intro l hl
    match l with
    | [] => rw [setupWildcards_nil, wildcardsAmended_nil]
    | c :: r =>
      simp only [List.length_cons, Nat.succ_le_succ_iff] at hl
      by_cases hq : c = '?'
      · subst hq
        rw [setupWildcards_q, wildcardsAmended_cons, if_pos rfl]
        exact congrArg _ (ih r hl)
      by_cases hs : c = '*'
      · subst hs
        rw [setupWildcards_s, wildcardsAmended_cons, if_neg (by decide), if_pos rfl]
        exact congrArg _ (ih r hl)
      by_cases hb : c = '\\'
      · subst hb
        obtain ⟨k, hk⟩ := dropBsRun_decomp r
        have hkl : r.length = k + (dropBsRun r).length := by
          conv_lhs => rw [hk]
          simp
        have hrepl : (('\\' :: r) : List Char) =
            List.replicate (k + 1) '\\' ++ dropBsRun r := by
          conv_lhs => rw [hk]
          rw [List.replicate_succ, List.cons_append]
        match hd : dropBsRun r with
        | [] =>
          rw [hd] at hrepl
          rw [hrepl, List.append_nil, setupWildcards_run_nil]
          have h2 := wildcardsAmended_run_skip (k + 1) [] (by simp [dropBsRun]) (by simp [dropBsRun])
          rw [List.append_nil, wildcardsAmended_nil, List.append_nil] at h2
          exact h2.symm
        | c2 :: t =>
          rw [hd] at hrepl hkl
          simp only [List.length_cons] at hkl
          have hlt : t.length ≤ n := by omega
          have hc2 : c2 ≠ '\\' := fun h => dropBsRun_head_ne_bs r (by rw [hd, h]; rfl)
          have hcons : (List.replicate (k + 1) '\\' ++ c2 :: t : List Char) =
              '\\' :: (List.replicate k '\\' ++ c2 :: t) := by
            rw [List.replicate_succ, List.cons_append]
          have hdk : dropBsRun (List.replicate k '\\' ++ c2 :: t) = c2 :: t :=
            dropBsRun_replicate_cons k c2 t hc2
          by_cases hq2 : c2 = '?'
          · subst hq2
            rw [hrepl, setupWildcards_run_q, hcons, wildcardsAmended_cons,
              if_neg (by decide), if_neg (by decide),
              if_pos ⟨rfl, by rw [hdk]; rfl⟩, hdk]
            exact congrArg _ (ih t hlt)
          by_cases hs2 : c2 = '*'
          · subst hs2
            rw [hrepl, setupWildcards_run_s, hcons, wildcardsAmended_cons,
              if_neg (by decide), if_neg (by decide),
              if_neg (by rintro ⟨-, h⟩; rw [hdk] at h; simp at h),
              if_pos ⟨rfl, by rw [hdk]; rfl⟩, hdk]
            exact congrArg _ (ih t hlt)
          · have hdc : dropBsRun (c2 :: t) = c2 :: t := dropBsRun_cons_ne c2 t hc2
            rw [hrepl, setupWildcards_run_other k c2 t hq2 hs2 hc2, hcons,
              wildcardsAmended_cons, if_neg (by decide), if_neg (by decide),
              if_neg (by rintro ⟨-, h⟩; rw [hdk] at h; exact hq2 (by simpa using h)),
              if_neg (by rintro ⟨-, h⟩; rw [hdk] at h; exact hs2 (by simpa using h)),
              wildcardsAmended_run_skip k (c2 :: t) (by rw [hdc]; simp [hq2])
                (by rw [hdc]; simp [hs2]),
              wildcardsAmended_cons, if_neg hq2, if_neg hs2,
              if_neg (fun h => hc2 h.1), if_neg (fun h => hc2 h.1),
              ih t hlt, List.replicate_succ, List.cons_append]
      · rw [setupWildcards_plain c r hq hs hb, wildcardsAmended_cons,
          if_neg hq, if_neg hs, if_neg (fun h => hb h.1), if_neg (fun h => hb h.1)]
        exact congrArg _ (ih r hl)

/-! ## Shared: JS whitespace -/

/-- The JavaScript whitespace class (as used by `\s`, `\S` and `trim`). -/
def jsSpace (c : Char) : Bool :=
  c = ' ' || c = '\t' || c = '\n' || c = '\x0b' || c = '\x0c' || c = '\r' ||
  c = '\u00A0' || c = '\u1680' || ('\u2000' ≤ c && c ≤ '\u200A') ||
  c = '\u2028' || c = '\u2029' || c = '\u202F' || c = '\u205F' ||
  c = '\u3000' || c = '\uFEFF'

/-- Embedding of `String.prototype.trim`. -/
def jsTrim (l : List Char) : List Char :=
  ((l.dropWhile jsSpace).reverse.dropWhile jsSpace).reverse

/-! ## C10: getSeparatedKeywords -/

/-- Embedding of `kw.split(' ')`: split on every single space character. -/
def splitSpaces : List Char → List (List Char)
  | [] => [[]]
  | c :: r =>
    match splitSpaces r with
    | [] => [[c]]
    | p :: ps => if c = ' ' then [] :: p :: ps else (c :: p) :: ps

/-- One push step of `getSeparatedKeywords` (src/dist/mark.umd.js:595-616):
a keyword is appended when its trim is non-blank and it is not already on the
stack. -/
def addKeyword (stack : List (List Char)) (kw : List Char) : List (List Char) :=
  if jsTrim kw ≠ [] ∧ kw ∉ stack then stack ++ [kw] else stack

/-- Processing of one entry of the search-term array: split into words first
when `separateWordSearch` is on. -/
def keywordStep (separateWordSearch : Bool) (stack : List (List Char))
    (kw : List Char) : List (List Char) :=
  if separateWordSearch then (splitSpaces kw).foldl addKeyword stack
  else addKeyword stack kw

/-- The stack built by `getSeparatedKeywords` before sorting. -/
def collectKeywords (separateWordSearch : Bool) (sv : List (List Char)) :
    List (List Char) :=
  sv.foldl (keywordStep separateWordSearch) []

/-- The comparator `(a, b) => b.length - a.length` of `getSeparatedKeywords`
as an order relation (comparator ≤ 0). -/
def keywordOrder (a b : List Char) : Prop := b.length ≤ a.length

instance : DecidableRel keywordOrder :=
  fun a b => inferInstanceAs (Decidable (b.length ≤ a.length))

instance : IsTotal (List Char) keywordOrder :=
  ⟨fun a b => le_total b.length a.length⟩

instance : IsTrans (List Char) keywordOrder :=
  ⟨fun _ _ _ h1 h2 => le_trans h2 h1⟩

/-- Embedding of `Mark.getSeparatedKeywords` (src/dist/mark.umd.js:595-616):
collect (optionally space-split) deduplicated non-blank keywords, sort by
length descending, and report the stack length.  JavaScript's `Array.sort`
leaves the algorithm unspecified, so the sort is modelled by an arbitrary
correct comparison sort. -/
def getSeparatedKeywords (separateWordSearch : Bool) (sv : List (List Char)) :
    List (List Char) × ℕ :=
  let stack := collectKeywords separateWordSearch sv
  (List.insertionSort keywordOrder stack, stack.length)

theorem addKeyword_mem {stack : List (List Char)} {kw x : List Char}
    (h : x ∈ addKeyword stack kw) : x ∈ stack ∨ x = kw := by
  unfold addKeyword at h
  split at h
  · rcases List.mem_append.mp h with h1 | h1
    · exact Or.inl h1
    · exact Or.inr (List.mem_singleton.mp h1)
  · exact Or.inl h

theorem addKeyword_nodup {stack : List (List Char)} (kw : List Char)
    (h : stack.Nodup) : (addKeyword stack kw).Nodup := by
  unfold addKeyword
  split
  · next hc => simp [List.nodup_append, h, hc.2]
  · exact h

theorem addKeyword_trim {stack : List (List Char)} (kw : List Char)
    (h : ∀ x ∈ stack, jsTrim x ≠ []) :
    ∀ x ∈ addKeyword stack kw, jsTrim x ≠ [] := by
  intro x hx
  unfold addKeyword at hx
  split at hx
  · next hc =>
    rcases List.mem_append.mp hx with h1 | h1
    · exact h x h1
    · rw [List.mem_singleton.mp h1]; exact hc.1
  · exact h x hx

theorem foldl_addKeyword_nodup (pieces : List (List Char)) :
    ∀ stack, stack.Nodup → (pieces.foldl addKeyword stack).Nodup := by
  induction pieces with
  | nil => intro stack h; exact h
  | cons p ps ih => intro stack h; exact ih _ (addKeyword_nodup p h)

theorem foldl_addKeyword_trim (pieces : List (List Char)) :
    ∀ stack, (∀ x ∈ stack, jsTrim x ≠ []) →
      ∀ x ∈ pieces.foldl addKeyword stack, jsTrim x ≠ [] := by
  induction pieces with
  | nil => intro stack h; exact h
  | cons p ps ih => intro stack h; exact ih _ (addKeyword_trim p h)

theorem foldl_addKeyword_mem (pieces : List (List Char)) :
    ∀ stack x, x ∈ pieces.foldl addKeyword stack → x ∈ stack ∨ x ∈ pieces := by
  induction pieces with
  | nil => intro stack x h; exact Or.inl h
  | cons p ps ih =>
    intro stack x h
    rcases ih _ x h with h1 | h1
    · rcases addKeyword_mem h1 with h2 | h2
      · exact Or.inl h2
      · exact Or.inr (by rw [h2]; exact List.mem_cons_self p ps)
    · exact Or.inr (List.mem_cons_of_mem p h1)

theorem splitSpaces_ne_nil (l : List Char) : splitSpaces l ≠ [] := by
  cases l with
  | nil => simp [splitSpaces]
  | cons c r =>
    rw [splitSpaces]
    split
    · simp
    · split <;> simp

theorem splitSpaces_no_space (l : List Char) : ∀ p ∈ splitSpaces l, ' ' ∉ p := by
  induction l with
  | nil => intro p hp; rw [splitSpaces] at hp; simp at hp; simp [hp]
  | cons c r ih =>
    intro p hp
    rcases hsp : splitSpaces r with - | ⟨q, qs⟩
    · exact absurd hsp (splitSpaces_ne_nil r)
    · simp only [splitSpaces, hsp] at hp
      by_cases hc : c = ' '
      · rw [if_pos hc] at hp
        rcases List.mem_cons.mp hp with h1 | h1
        · rw [h1]; simp
        · exact ih p (by rw [hsp]; exact h1)
      · rw [if_neg hc] at hp
        rcases List.mem_cons.mp hp with h1 | h1
        · rw [h1]
          intro hmem
          rcases List.mem_cons.mp hmem with h2 | h2
          · exact hc h2.symm
          · exact ih q (by rw [hsp]; exact List.mem_cons_self q qs) h2
        · exact ih p (by rw [hsp]; exact List.mem_cons_of_mem q h1)

theorem keywordStep_nodup (sws : Bool) (stack : List (List Char)) (kw : List Char)
    (h : stack.Nodup) : (keywordStep sws stack kw).Nodup := by
  unfold keywordStep
  split
  · exact foldl_addKeyword_nodup _ _ h
  · exact addKeyword_nodup _ h

theorem keywordStep_trim (sws : Bool) (stack : List (List Char)) (kw : List Char)
    (h : ∀ x ∈ stack, jsTrim x ≠ []) :
    ∀ x ∈ keywordStep sws stack kw, jsTrim x ≠ [] := by
  unfold keywordStep
  split
  · exact foldl_addKeyword_trim _ _ h
  · exact addKeyword_trim _ h

theorem keywordStep_mem {sws : Bool} {stack : List (List Char)} {kw x : List Char}
    (h : x ∈ keywordStep sws stack kw) :
    x ∈ stack ∨ x ∈ (if sws then splitSpaces kw else [kw]) := by
  unfold keywordStep at h
  by_cases hs : sws = true
  · rw [if_pos hs] at h ⊢
    exact foldl_addKeyword_mem _ _ _ h
  · rw [if_neg hs] at h ⊢
    rcases addKeyword_mem h with h1 | h1
    · exact Or.inl h1
    · exact Or.inr (by rw [h1]; exact List.mem_singleton_self kw)

theorem collect_foldl_nodup (sws : Bool) (sv : List (List Char)) :
    ∀ stack : List (List Char), stack.Nodup →
      (sv.foldl (keywordStep sws) stack).Nodup := by
  induction sv with
  | nil => intro stack h; exact h
  | cons kw rest ih => intro stack h; exact ih _ (keywordStep_nodup _ _ _ h)

theorem collect_foldl_trim (sws : Bool) (sv : List (List Char)) :
    ∀ stack : List (List Char), (∀ x ∈ stack, jsTrim x ≠ []) →
      ∀ x ∈ sv.foldl (keywordStep sws) stack, jsTrim x ≠ [] := by
  induction sv with
  | nil => intro stack h; exact h
  | cons kw rest ih => intro stack h; exact ih _ (keywordStep_trim _ _ _ h)

theorem collect_foldl_mem (sws : Bool) (sv : List (List Char)) :
    ∀ (stack : List (List Char)) (x : List Char),
      x ∈ sv.foldl (keywordStep sws) stack →
      x ∈ stack ∨ ∃ s ∈ sv, x ∈ (if sws then splitSpaces s else [s]) := by
  induction sv with
  | nil => intro stack x h; exact Or.inl h
  | cons kw rest ih =>
    intro stack x h
    rcases ih _ x h with h1 | ⟨s, hs, hx⟩
    · rcases keywordStep_mem h1 with h2 | h2
      · exact Or.inl h2
      · exact Or.inr ⟨kw, List.mem_cons_self kw rest, h2⟩
    · exact Or.inr ⟨s, List.mem_cons_of_mem kw hs, hx⟩

/-- C10: `getSeparatedKeywords` returns a duplicate-free list with no blank or
whitespace-only entries, sorted by length descending; the reported length
equals the number of returned keywords; with `separateWordSearch` every entry
comes from splitting an input string on single spaces (hence contains no
space), and without it every entry is an input string. -/
theorem getSeparatedKeywords_spec (sws : Bool) (sv : List (List Char)) :
    (getSeparatedKeywords sws sv).1.Nodup ∧
    (∀ k ∈ (getSeparatedKeywords sws sv).1, jsTrim k ≠ []) ∧
    List.Pairwise (fun a b : List Char => b.length ≤ a.length)
      (getSeparatedKeywords sws sv).1 ∧
    (getSeparatedKeywords sws sv).2 = (getSeparatedKeywords sws sv).1.length ∧
    (sws = true → ∀ k ∈ (getSeparatedKeywords sws sv).1,
      (∃ s ∈ sv, k ∈ splitSpaces s) ∧ ' ' ∉ k) ∧
    (sws = false → ∀ k ∈ (getSeparatedKeywords sws sv).1, k ∈ sv) := by
  have hperm := List.perm_insertionSort keywordOrder (collectKeywords sws sv)
  have hmem : ∀ k ∈ (getSeparatedKeywords sws sv).1, k ∈ collectKeywords sws sv :=
    fun k hk => hperm.mem_iff.mp hk
  refine ⟨?_, ?_, ?_, ?_, ?_, ?_⟩
  · exact hperm.nodup_iff.mpr (collect_foldl_nodup sws sv [] List.nodup_nil)
  · intro k hk
    exact collect_foldl_trim sws sv [] (by intro x hx; cases hx) k (hmem k hk)
  · exact List.sorted_insertionSort keywordOrder (collectKeywords sws sv)
  · exact (hperm.length_eq).symm
  · intro hsws k hk
    rcases collect_foldl_mem sws sv [] k (hmem k hk) with h1 | ⟨s, hs, hx⟩
    · cases h1
    · rw [hsws] at hx
      simp only [if_pos rfl] at hx
      exact ⟨⟨s, hs, hx⟩, splitSpaces_no_space s k hx⟩
  · intro hsws k hk
    rcases collect_foldl_mem sws sv [] k (hmem k hk) with h1 | ⟨s, hs, hx⟩
    · cases h1
    · rw [hsws] at hx
      rw [if_neg Bool.false_ne_true] at hx
      rwa [List.mem_singleton.mp hx]

/-- Closed witness for C10: two multi-word inputs with a duplicate word. -/
theorem getSeparatedKeywords_spec_witness :
    (getSeparatedKeywords true ["lorem ipsum".toList, "x lorem".toList]).1 =
      ["lorem".toList, "ipsum".toList, "x".toList] ∧
    ' ' ∉ "lorem".toList ∧ jsTrim "lorem".toList ≠ [] := by
  refine ⟨by decide, ?_, ?_⟩
  · exact ((getSeparatedKeywords_spec true
      ["lorem ipsum".toList, "x lorem".toList]).2.2.2.2.1 rfl
      "lorem".toList (by decide)).2
  · exact (getSeparatedKeywords_spec true
      ["lorem ipsum".toList, "x lorem".toList]).2.1 "lorem".toList (by decide)

/-! ## C5: range validation (checkRanges / callNoMatchOnInvalidRanges) -/

/-- A raw caller-supplied range.  A field is `some n` when the JS value passes
the `isNumeric` test with integer value `n`, and `none` when it is undefined
or non-numeric. -/
structure RangeIn where
  rstart : Option ℤ
  rlength : Option ℤ
deriving DecidableEq

/-- Embedding of `Mark.callNoMatchOnInvalidRanges(range, last)`
(src/dist/mark.umd.js:648-677): `some (start, end)` when the range is valid
relative to `last` (the end of the previously accepted range), `none` when it
is invalid, in which case the code invokes the `noMatch` callback on it. -/
def callNoMatchOnInvalidRanges (r : RangeIn) (last : ℤ) : Option (ℤ × ℤ) :=
  match r.rstart, r.rlength with
  | some s, some l => if s ≥ last ∧ s + l > s then some (s, s + l) else none
  | _, _ => none

/-- Embedding of the `forEach` loop of `Mark.checkRanges`
(src/dist/mark.umd.js:629-646): accepted ranges are returned as
`(start, length)` pairs (the code rewrites `item.start`/`item.length` to the
parsed values) and rejected ranges are collected in the order the `noMatch`
callback fires. -/
def checkRangesLoop (wrapAllRanges : Bool) :
    List RangeIn → ℤ → List (ℤ × ℤ) × List RangeIn
  | [], _ => ([], [])
  | r :: rest, last =>
    match callNoMatchOnInvalidRanges r last with
    | some (s, e) =>
      let last2 := if wrapAllRanges then last else e
      let res := checkRangesLoop wrapAllRanges rest last2
      ((s, e - s) :: res.1, res.2)
    | none =>
      let res := checkRangesLoop wrapAllRanges rest last
      (res.1, r :: res.2)

/-- The `Array.sort` comparator `(a, b) => a.start - b.start` of `checkRanges`
as a boolean "comparator ≤ 0" relation; a comparison involving a non-numeric
start yields `NaN`, which the ECMAScript sort treats as `0`. -/
def rangeLe (a b : RangeIn) : Bool :=
  match a.rstart, b.rstart with
  | some x, some y => x ≤ y
  | _, _ => true

/-- Embedding of `Mark.checkRanges` (src/dist/mark.umd.js:620-647).  The
top-level type-shape guard reduces, for a typed list of range records, to the
empty-array check (on `[]` the whole argument is reported to `noMatch` and no
range is processed). -/
def checkRanges (wrapAllRanges : Bool) (rs : List RangeIn) :
    List (ℤ × ℤ) × List RangeIn :=
  if rs = [] then ([], [])
  else checkRangesLoop wrapAllRanges
    (List.insertionSort (fun a b => rangeLe a b = true) rs) 0

theorem checkRangesLoop_length (wrapAllRanges : Bool) (rs : List RangeIn) :
    ∀ last, (checkRangesLoop wrapAllRanges rs last).1.length +
      (checkRangesLoop wrapAllRanges rs last).2.length = rs.length := by
  induction rs with
  | nil => intro last; rfl
  | cons r rest ih =>
    intro last
    rw [checkRangesLoop]
    rcases h : callNoMatchOnInvalidRanges r last with - | ⟨s, e⟩ <;>
      simp [h, List.length_cons] <;> [have := ih last; have := ih (if wrapAllRanges then last else e)] <;> omega

theorem checkRangesLoop_rejects (wrapAllRanges : Bool) (rs : List RangeIn)
    (x : RangeIn) (hx : ∀ last, callNoMatchOnInvalidRanges x last = none) :
    ∀ last, x ∈ rs → x ∈ (checkRangesLoop wrapAllRanges rs last).2 := by
  induction rs with
  | nil => intro last h; cases h
  | cons r rest ih =>
    intro last hmem
    rw [checkRangesLoop]
    rcases List.mem_cons.mp hmem with h1 | h1
    · subst h1
      rw [hx last]
      exact List.mem_cons_self _ _
    · rcases h : callNoMatchOnInvalidRanges r last with - | ⟨s, e⟩
      · exact List.mem_cons_of_mem _ (ih last h1)
      · exact ih _ h1

/-- C5: every range with a non-numeric (or undefined) start or length, or with
non-positive length, is rejected — reported through the `noMatch` callback
(membership in the rejected list) and excluded from the accepted list — while
validation continues over the rest of the batch (accepted and rejected ranges
together always account for the whole input); and a step is rejected exactly
when a bound is non-numeric, the end is not greater than the start, or the
start lies before the end of the previously accepted range. -/
theorem checkRanges_spec (rs : List RangeIn) (hne : rs ≠ []) :
    (checkRanges false rs).1.length + (checkRanges false rs).2.length = rs.length ∧
    (∀ x ∈ rs, x.rstart = none ∨ x.rlength = none → x ∈ (checkRanges false rs).2) ∧
    (∀ x ∈ rs, ∀ s l, x.rstart = some s → x.rlength = some l → l ≤ 0 →
      x ∈ (checkRanges false rs).2) ∧
    (∀ (x : RangeIn) (last : ℤ), callNoMatchOnInvalidRanges x last = none ↔
      x.rstart = none ∨ x.rlength = none ∨
      ∃ s l, x.rstart = some s ∧ x.rlength = some l ∧ (s + l ≤ s ∨ s < last)) := by
  have hperm := List.perm_insertionSort (fun a b => rangeLe a b = true) rs
  have hx : checkRanges false rs =
      checkRangesLoop false (List.insertionSort (fun a b => rangeLe a b = true) rs) 0 := by
    rw [checkRanges, if_neg hne]
  refine ⟨?_, ?_, ?_, ?_⟩
  · rw [hx, checkRangesLoop_length, hperm.length_eq]
  · intro x hmem hinv
    rw [hx]
    apply checkRangesLoop_rejects
    · intro last
      rcases hinv with h | h
      · simp [callNoMatchOnInvalidRanges, h]
      · rcases hs : x.rstart with - | s <;> simp [callNoMatchOnInvalidRanges, h, hs]
    · exact hperm.mem_iff.mpr hmem
  · intro x hmem s l hs hl hneg
    rw [hx]
    apply checkRangesLoop_rejects
    · intro last
      simp [callNoMatchOnInvalidRanges, hs, hl]
      intro h
      omega
    · exact hperm.mem_iff.mpr hmem
  · intro x last
    rcases hs : x.rstart with - | s <;> rcases hl : x.rlength with - | l <;>
      simp [callNoMatchOnInvalidRanges, hs, hl]
    omega

/-- Closed witness for C5: the spec's example range of negative length is
rejected, and a batch containing it is still fully processed. -/
theorem checkRanges_spec_witness :
    (⟨some 5, some (-1)⟩ : RangeIn) ∈
      (checkRanges false [⟨some 5, some (-1)⟩, ⟨some 1, some 2⟩]).2 ∧
    (checkRanges false [⟨some 5, some (-1)⟩, ⟨some 1, some 2⟩]).1.length +
      (checkRanges false [⟨some 5, some (-1)⟩, ⟨some 1, some 2⟩]).2.length = 2 :=
  ⟨(checkRanges_spec [⟨some 5, some (-1)⟩, ⟨some 1, some 2⟩] (by simp)).2.2.1
      ⟨some 5, some (-1)⟩ (by simp) 5 (-1) rfl rfl (by omega),
   (checkRanges_spec [⟨some 5, some (-1)⟩, ⟨some 1, some 2⟩] (by simp)).1⟩

/-! ## Fragment-mapped wrap engine -/

/-- A fragment record of the wrap engine's `dict.nodes` (the fields `start`,
`end`, `offset` of the JS node records; `end` is spelled `end_`).  The owning
DOM text node is irrelevant to the bookkeeping claims and is omitted; its text
length always equals `end_ - start`. -/
structure Frag where
  start : ℕ
  end_ : ℕ
  offset : ℕ
deriving DecidableEq

instance : Inhabited Frag := ⟨⟨0, 0, 0⟩⟩

/-- The mutable `dict` of the wrap engine: virtual string, fragment list and
resume bookkeeping. -/
structure Dict where
  value : List Char
  nodes : List Frag
  lastIndex : ℕ
  lastTextIndex : ℕ
deriving DecidableEq

/-- One marker unit produced by a wrap: the wrapped fragment's index, the
local span `[s, e)` inside its text, and the `rangeStart` flag passed to the
each callback. -/
structure WrapEvent where
  index : ℕ
  s : ℕ
  e : ℕ
  rangeStart : Bool
deriving DecidableEq

/-- The state threaded through `wrapRangeInMappedTextNode`'s for-loop. -/
structure WrapState where
  nodes : List Frag
  lastIndex : ℕ
  lastTextIndex : ℕ
  events : List WrapEvent
deriving DecidableEq

/-- The for-loop body of `Mark.wrapRangeInMappedTextNode`
(src/dist/mark.umd.js:966-998) on the default path
(`wrapAllRanges`/`cacheTextNodes` both false).  `i` is the loop index,
`start` the (mutated) range start, `end_` the range end; the fuel only bounds
the iteration count (each call passes at least `nodes.length - i`, which the
loop never exceeds since `i` increases every iteration). -/
def wrapLoop (filterCb : Frag → Bool) (end_ : ℕ) :
    ℕ → ℕ → ℕ → Bool → WrapState → WrapState
  | 0, _, _, _, st => st
  | fuel + 1, i, start, rangeStart, st =>
    if i < st.nodes.length then
      let guard := match st.nodes[i + 1]? with
        | none => true
        | some next => decide (start < next.start)
      if guard then
        let n := st.nodes.getD i default
        if ¬ filterCb n then
          { st with lastIndex := if st.lastIndex < i then i else st.lastIndex }
        else
          let s : ℤ := (start : ℤ) - n.start
          let e : ℤ := (min end_ n.end_ : ℕ) - (n.start : ℤ)
          let wrapped := 0 ≤ s ∧ s < e
          let st' := if wrapped then
              { st with
                nodes := st.nodes.set i { n with start := n.start + e.toNat },
                lastTextIndex := n.start + e.toNat,
                events := st.events ++ [⟨i, s.toNat, e.toNat, rangeStart⟩] }
            else st
          let rangeStart' := if wrapped then false else rangeStart
          if n.end_ < end_ then
            wrapLoop filterCb end_ fuel (i + 1) (n.end_ + n.offset) rangeStart' st'
          else
            { st' with lastIndex := i }
      else
        wrapLoop filterCb end_ fuel (i + 1) start rangeStart st
    else st

/-- Embedding of `Mark.wrapRangeInMappedTextNode(dict, start, end, filterCb,
eachCb)` (src/dist/mark.umd.js:955-999) on the default
(non-`wrapAllRanges`) path: returns the updated dict together with the list
of each-callback invocations (marker units). -/
def wrapRangeInMappedTextNode (filterCb : Frag → Bool) (dict : Dict)
    (start end_ : ℕ) : Dict × List WrapEvent :=
  if start < dict.lastTextIndex then (dict, [])
  else
    let st := wrapLoop filterCb end_ (dict.nodes.length - dict.lastIndex)
      dict.lastIndex start true
      ⟨dict.nodes, dict.lastIndex, dict.lastTextIndex, []⟩
    ({ dict with
        nodes := st.nodes
        lastIndex := st.lastIndex
        lastTextIndex := st.lastTextIndex }, st.events)

/-- The info record passed to the each callback by
`wrapMatchesAcrossElements` (src/dist/mark.umd.js:1338-1346). -/
structure EachInfo where
  matchStart : Bool
  count : ℕ
deriving DecidableEq

/-- One each-callback step of `wrapMatchesAcrossElements`: the count is
incremented exactly when the marker unit is the first of its match. -/
def eachStep (acc : List EachInfo × ℕ) (ev : WrapEvent) : List EachInfo × ℕ :=
  let c := if ev.rangeStart then acc.2 + 1 else acc.2
  (acc.1 ++ [⟨ev.rangeStart, c⟩], c)

/-- Processing of a single match by `Mark.wrapMatchesAcrossElements`
(src/dist/mark.umd.js:1314-1354): wrap the match span `[start, end_)` and
report one each-callback invocation per marker unit. -/
def processMatchAcross (filterCb : Frag → Bool) (dict : Dict)
    (start end_ : ℕ) (count : ℕ) : Dict × List EachInfo × ℕ :=
  let res := wrapRangeInMappedTextNode filterCb dict start end_
  let infos := res.2.foldl eachStep ([], count)
  (res.1, infos.1, infos.2)

/-! ## C3: fragment-list splice (wrapRangeInTextNodeInsert) -/

/-- Embedding of the fragment-list effect of `Mark.wrapRangeInTextNodeInsert`
(src/dist/mark.umd.js:918-954).  `index` addresses the wrapped fragment `n`,
`s`/`e` are the local bounds of the matched run inside its text (of length
`n.end_ - n.start`), and `start` is the absolute start (callers pass
`start = n.start + s`).  Returns the updated list and the JS `increment`.
When the whole text is matched the record is reused in place for the marker
(increment 0); otherwise the original record is replaced by the
unmatched-before part (when `s > 0`), the marker record `mNode`, and the
unmatched-after part `retNode` (when the match does not reach the text end). -/
def wrapRangeInTextNodeInsert (nodes : List Frag) (index s e start : ℕ) :
    List Frag × ℕ :=
  match nodes[index]? with
  | none => (nodes, 0)
  | some n =>
    let ended := e = n.end_ - n.start
    if s = 0 ∧ ended then (nodes, 0)
    else
      let mNode : Frag := ⟨start, n.start + e, 0⟩
      let retNode : Frag := ⟨n.start + e, n.end_, n.offset⟩
      if s = 0 then
        (nodes.take index ++ mNode :: retNode :: nodes.drop (index + 1), 1)
      else if ended then
        (nodes.take index ++ { n with end_ := start, offset := 0 } :: mNode ::
          nodes.drop (index + 1), 1)
      else
        (nodes.take index ++ { n with end_ := start, offset := 0 } :: mNode ::
          retNode :: nodes.drop (index + 1), 2)

/-- The contiguity invariant on the fragment list: each fragment's `end_` plus
its boundary offset is the next fragment's `start`. -/
def contiguous (nodes : List Frag) : Prop :=
  List.Chain' (fun a b => a.end_ + a.offset = b.start) nodes

/-- Executable check for `contiguous`. -/
def contiguousB : List Frag → Bool
  | [] => true
  | [_] => true
  | a :: b :: rest => (a.end_ + a.offset = b.start) && contiguousB (b :: rest)

theorem contiguous_iff_contiguousB (l : List Frag) : contiguous l ↔ contiguousB l = true := by
  induction l with
  | nil => simp [contiguous, contiguousB]
  | cons a rest ih =>
    cases rest with
    | nil => simp [contiguous, contiguousB]
    | cons b rest2 =>
      rw [contiguous, List.chain'_cons, contiguousB]
      rw [contiguous] at ih
      simp [ih]

instance : DecidablePred contiguous := fun l =>
  decidable_of_iff (contiguousB l = true) (contiguous_iff_contiguousB l).symm

/-- Embedding of the fragment bookkeeping of
`Mark.getTextNodesAcrossElements` (src/dist/mark.umd.js:801-842): each text
node contributes its text length and the number of appended boundary-marker
characters (`offset`); `start` is the virtual-string length before the append
and `end` excludes the boundary characters. -/
def buildFrags : ℕ → List (ℕ × ℕ) → List Frag
  | _, [] => []
  | acc, (len, off) :: rest => ⟨acc, acc + len, off⟩ :: buildFrags (acc + len + off) rest

/-! ## C6: whitespace-only range rejection -/

/-- The reason logged when `checkWhitespaceRanges` rejects a range (each site
also invokes the `noMatch` callback on the range). -/
inductive RangeReason
  | boundsInvalid
  | whitespaceOnly
deriving DecidableEq

/-- The result record of `checkWhitespaceRanges`. -/
structure WsCheck where
  start : ℤ
  end_ : ℤ
  valid : Bool
  reason : Option RangeReason
deriving DecidableEq

/-- The clipping pattern `v > max ? max : v` used by `checkWhitespaceRanges`. -/
def clipMax (max v : ℤ) : ℤ := if max < v then max else v

theorem clipMax_le (max v : ℤ) : clipMax max v ≤ max ∨ clipMax max v = v := by
  rw [clipMax]
  split_ifs <;> simp

theorem clipMax_le_max (max v : ℤ) : clipMax max v ≤ max := by
  rw [clipMax]
  split_ifs <;> omega

theorem clipMax_of_le {max v : ℤ} (h : v ≤ max) : clipMax max v = v := by
  rw [clipMax, if_neg (by omega)]

/-- Embedding of `Mark.checkWhitespaceRanges(range, originalLength, string)`
(src/dist/mark.umd.js:678-704): reproject the start when the current text
length differs from `originalLength`, clip both bounds to the text length,
then reject out-of-bounds/empty spans and spans without a single
non-whitespace character. -/
def checkWhitespaceRanges (rstart rlength : ℤ) (originalLength : ℕ)
    (string : List Char) : WsCheck :=
  let max : ℤ := string.length
  let offset : ℤ := (originalLength : ℤ) - max
  let start := clipMax max (rstart - offset)
  let end_ := clipMax max (start + rlength)
  if start < 0 ∨ end_ - start ≤ 0 then ⟨start, end_, false, some .boundsInvalid⟩
  else if ((string.take end_.toNat).drop start.toNat).all jsSpace then
    ⟨start, end_, false, some .whitespaceOnly⟩
  else ⟨start, end_, true, none⟩

/-- One range step of `Mark.wrapRangeFromIndex` (src/dist/mark.umd.js:
1355-1386): validate the range against the virtual string and wrap only when
valid. -/
def wrapRangeFromIndexStep (filterCb : Frag → Bool) (dict : Dict)
    (rstart rlength : ℤ) (originalLength : ℕ) : Dict × List WrapEvent :=
  let c := checkWhitespaceRanges rstart rlength originalLength dict.value
  if c.valid then wrapRangeInMappedTextNode filterCb dict c.start.toNat c.end_.toNat
  else (dict, [])


/-- The `m`-th fragment record of a fragment list. -/
def nthFrag (nodes : List Frag) (m : ℕ) : Frag := nodes.getD m default

theorem nthFrag_wf {nodes : List Frag} (hwf : ∀ f ∈ nodes, f.start ≤ f.end_)
    {j : ℕ} (hj : j < nodes.length) :
    (nthFrag nodes j).start ≤ (nthFrag nodes j).end_ := by
  apply hwf
  rw [nthFrag, List.getD_eq_getElem _ _ hj]
  exact List.getElem_mem hj

theorem contiguous_step {nodes : List Frag} (hchain : contiguous nodes)
    {j : ℕ} (hj : j + 1 < nodes.length) :
    (nthFrag nodes j).end_ + (nthFrag nodes j).offset = (nthFrag nodes (j + 1)).start := by
  have h := List.chain'_iff_get.mp hchain j (by omega)
  rw [nthFrag, nthFrag, List.getD_eq_getElem _ _ (show j < nodes.length by omega),
    List.getD_eq_getElem _ _ hj]
  simpa [List.get_eq_getElem] using h

theorem frag_start_mono {nodes : List Frag} (hchain : contiguous nodes)
    (hwf : ∀ f ∈ nodes, f.start ≤ f.end_) :
    ∀ j, j < nodes.length → ∀ i, i ≤ j →
      (nthFrag nodes i).start ≤ (nthFrag nodes j).start := by
  intro j
  induction j with
  | zero =>
    intro _ i hi
    have : i = 0 := Nat.le_zero.mp hi
    subst this; exact le_refl _
  | succ j ih =>
    intro hj i hi
    rcases Nat.lt_or_ge i (j + 1) with h | h
    · have h1 := ih (by omega) i (by omega)
      have h2 := contiguous_step hchain hj
      have h3 := nthFrag_wf hwf (show j < nodes.length by omega)
      omega
    · have : i = j + 1 := by omega
      subst this; exact le_refl _

theorem frag_end_le_start {nodes : List Frag} (hchain : contiguous nodes)
    (hwf : ∀ f ∈ nodes, f.start ≤ f.end_) :
    ∀ i j, i < j → j < nodes.length →
      (nthFrag nodes i).end_ + (nthFrag nodes i).offset ≤ (nthFrag nodes j).start := by
  intro i j hij hj
  have h1 := contiguous_step hchain (show i + 1 < nodes.length by omega)
  have h2 := frag_start_mono hchain hwf j hj (i + 1) (by omega)
  omega

theorem wrapLoop_phase (end_ : ℕ) (nodes0 : List Frag)
    (hchain : contiguous nodes0) (hwf : ∀ f ∈ nodes0, f.start ≤ f.end_)
    (iL : ℕ) (hlen : iL < nodes0.length)
    (he2 : end_ ≤ (nthFrag nodes0 iL).end_)
    (hiL : (nthFrag nodes0 iL).start < end_) :
    ∀ fuel j, j ≤ iL → iL - j < fuel →
    ∀ (st : WrapState) (start : ℕ) (rangeStart : Bool),
      st.nodes.length = nodes0.length →
      (∀ m, j ≤ m → st.nodes[m]? = nodes0[m]?) →
      (nthFrag nodes0 j).start ≤ start →
      start < (nthFrag nodes0 j).end_ →
      start < end_ →
      (∀ m, j ≤ m → m ≤ iL → (nthFrag nodes0 m).start < (nthFrag nodes0 m).end_) →
      ∃ (nodes' : List Frag) (evs : List WrapEvent),
        wrapLoop (fun _ => true) end_ fuel j start rangeStart st =
          ⟨nodes', iL, end_, st.events ++ evs⟩ ∧
        evs.map WrapEvent.index = List.range' j (iL + 1 - j) ∧
        evs.map WrapEvent.rangeStart = rangeStart :: List.replicate (iL - j) false := by
  intro fuel
  induction fuel with
  | zero => intro j hj hfuel; omega
  | succ fuel ih =>
    intro j hj hfuel st start rangeStart hlen2 hagree hst1 hst2 hst3 hne
    have hjlen : j < nodes0.length := by omega
    have hjlen2 : j < st.nodes.length := by omega
    have hn : st.nodes.getD j default = nthFrag nodes0 j := by
      rw [List.getD_eq_getElem?_getD, hagree j (le_refl j), nthFrag,
        List.getD_eq_getElem?_getD]
    have hguard : (match st.nodes[j + 1]? with
        | none => true
        | some next => decide (start < next.start)) = true := by
      rw [hagree (j + 1) (by omega)]
      rcases Nat.lt_or_ge (j + 1) nodes0.length with h | h
      · rw [List.getElem?_eq_getElem h]
        simp only [decide_eq_true_eq]
        have h2 := frag_end_le_start hchain hwf j (j + 1) (by omega) h
        have h3 : nthFrag nodes0 (j + 1) = nodes0[j + 1] := by
          rw [nthFrag, List.getD_eq_getElem _ _ h]
        rw [← h3]
        omega
      · rw [List.getElem?_eq_none h]
    rw [wrapLoop]
    rw [if_pos hjlen2]
    simp only [hguard, if_true, hn]
    rw [if_neg (by simp)]
    rcases Nat.lt_or_ge j iL with hjL | hjL
    -- middle (or first) fragment, j < iL: wrap to the fragment end and continue
    · have hend : (nthFrag nodes0 j).end_ < end_ := by
        have h1 := frag_end_le_start hchain hwf j iL hjL hlen
        omega
      have hmin : min end_ (nthFrag nodes0 j).end_ = (nthFrag nodes0 j).end_ :=
        min_eq_right (by omega)
      have hwrapped : (0 ≤ (start : ℤ) - (nthFrag nodes0 j).start ∧
          (start : ℤ) - (nthFrag nodes0 j).start <
            ((min end_ (nthFrag nodes0 j).end_ : ℕ) : ℤ) - (nthFrag nodes0 j).start) := by
        rw [hmin]
        constructor
        · omega
        · omega
      rw [if_pos hwrapped, if_pos hwrapped, if_pos hend]
      set eTo := (((min end_ (nthFrag nodes0 j).end_ : ℕ) : ℤ) -
        ((nthFrag nodes0 j).start : ℤ)).toNat with heTo
      have heTo2 : eTo = (nthFrag nodes0 j).end_ - (nthFrag nodes0 j).start := by
        rw [heTo, hmin]; omega
      -- apply the induction hypothesis at j + 1
      have hnext := contiguous_step hchain (show j + 1 < nodes0.length by omega)
      obtain ⟨nodes', evs', hrec, hidx, hflags⟩ := ih (j + 1) (by omega) (by omega)
        { st with
          nodes := st.nodes.set j
            { nthFrag nodes0 j with start := (nthFrag nodes0 j).start + eTo },
          lastTextIndex := (nthFrag nodes0 j).start + eTo,
          events := st.events ++ [⟨j, ((start : ℤ) - (nthFrag nodes0 j).start).toNat,
            eTo, rangeStart⟩] }
        ((nthFrag nodes0 j).end_ + (nthFrag nodes0 j).offset) false
        (by simp [hlen2])
        (by
          intro m hm
          simp only [List.getElem?_set]
          rw [if_neg (by omega)]
          exact hagree m (by omega))
        (by omega)
        (by
          have h5 := hne (j + 1) (by omega) (by omega)
          omega)
        (by
          have h2 := frag_start_mono hchain hwf iL hlen (j + 1) (by omega)
          omega)
        (fun m hm1 hm2 => hne m (by omega) hm2)
      refine ⟨nodes', ⟨j, ((start : ℤ) - (nthFrag nodes0 j).start).toNat, eTo,
        rangeStart⟩ :: evs', ?_, ?_, ?_⟩
      · rw [hrec]
        simp
      · rw [List.map_cons, hidx]
        have h9 : iL + 1 - j = (iL - j) + 1 := by omega
        have h10 : iL + 1 - (j + 1) = iL - j := by omega
        rw [h9, h10, List.range'_succ]
      · simp only [List.map_cons, hflags]
        have : iL - j = (iL - (j + 1)) + 1 := by omega
        rw [this, List.replicate_succ]
    -- last fragment, j = iL: wrap to end_ and stop
    · have hjeq : j = iL := by omega
      subst hjeq
      have hmin : min end_ (nthFrag nodes0 j).end_ = end_ := min_eq_left he2
      have hwrapped : (0 ≤ (start : ℤ) - (nthFrag nodes0 j).start ∧
          (start : ℤ) - (nthFrag nodes0 j).start <
            ((min end_ (nthFrag nodes0 j).end_ : ℕ) : ℤ) - (nthFrag nodes0 j).start) := by
        rw [hmin]
        constructor
        · omega
        · omega
      rw [if_pos hwrapped, if_pos hwrapped, if_neg (by omega)]
      set eTo := (((min end_ (nthFrag nodes0 j).end_ : ℕ) : ℤ) -
        ((nthFrag nodes0 j).start : ℤ)).toNat with heTo
      have heTo2 : eTo = end_ - (nthFrag nodes0 j).start := by
        rw [heTo, hmin]; omega
      refine ⟨st.nodes.set j
          { nthFrag nodes0 j with start := (nthFrag nodes0 j).start + eTo },
        [⟨j, ((start : ℤ) - (nthFrag nodes0 j).start).toNat, eTo, rangeStart⟩],
        ?_, ?_, ?_⟩
      · have h9 : (nthFrag nodes0 j).start + eTo = end_ := by omega
        rw [h9]
      · simp
      · simp


theorem wrapLoop_full (end_ : ℕ) (nodes0 : List Frag)
    (hchain : contiguous nodes0) (hwf : ∀ f ∈ nodes0, f.start ≤ f.end_)
    (iF iL : ℕ) (hFL : iF ≤ iL) (hlen : iL < nodes0.length)
    (he2 : end_ ≤ (nthFrag nodes0 iL).end_)
    (hiL : (nthFrag nodes0 iL).start < end_)
    (start : ℕ)
    (hs1 : (nthFrag nodes0 iF).start ≤ start)
    (hs2 : start < (nthFrag nodes0 iF).end_)
    (hse : start < end_)
    (hne : ∀ m, iF ≤ m → m ≤ iL → (nthFrag nodes0 m).start < (nthFrag nodes0 m).end_) :
    ∀ fuel i, i ≤ iF → nodes0.length ≤ fuel + i →
    ∀ (st : WrapState), st.nodes = nodes0 →
      ∃ (nodes' : List Frag) (evs : List WrapEvent),
        wrapLoop (fun _ => true) end_ fuel i start true st =
          ⟨nodes', iL, end_, st.events ++ evs⟩ ∧
        evs.map WrapEvent.index = List.range' iF (iL + 1 - iF) ∧
        evs.map WrapEvent.rangeStart = true :: List.replicate (iL - iF) false := by
  intro fuel
  induction fuel with
  | zero => intro i h1 h2 st hst; omega
  | succ fuel ih =>
    intro i hi hfuel st hst
    rcases eq_or_lt_of_le hi with heq | hlt
    · subst heq
      exact wrapLoop_phase end_ nodes0 hchain hwf iL hlen he2 hiL (fuel + 1) i hFL
        (by omega) st start true (by rw [hst]) (by intro m _; rw [hst]) hs1 hs2 hse
        (fun m hm1 hm2 => hne m hm1 hm2)
    · have hilen : i < st.nodes.length := by rw [hst]; omega
      have hnext : st.nodes[i + 1]? = some (nthFrag nodes0 (i + 1)) := by
        rw [hst, nthFrag, List.getD_eq_getElem _ _ (show i + 1 < nodes0.length by omega)]
        exact List.getElem?_eq_getElem _
      have hguard : (match st.nodes[i + 1]? with
          | none => true
          | some next => decide (start < next.start)) = false := by
        rw [hnext]
        simp only [decide_eq_false_iff_not, not_lt]
        calc (nthFrag nodes0 (i + 1)).start
            ≤ (nthFrag nodes0 iF).start :=
              frag_start_mono hchain hwf iF (by omega) (i + 1) (by omega)
          _ ≤ start := hs1
      rw [wrapLoop, if_pos hilen]
      simp only [hguard, Bool.false_eq_true, if_false]
      exact ih (i + 1) (by omega) (by omega) st hst

theorem eachFold_false (evs : List WrapEvent) :
    ∀ (acc : List EachInfo) (c : ℕ), (∀ ev ∈ evs, ev.rangeStart = false) →
      evs.foldl eachStep (acc, c) =
      (acc ++ evs.map (fun _ => (⟨false, c⟩ : EachInfo)), c) := by
  induction evs with
  | nil => intro acc c _; simp
  | cons ev rest ih =>
    intro acc c hall
    have h1 : ev.rangeStart = false := hall ev (List.mem_cons_self _ _)
    have h2 : eachStep (acc, c) ev = (acc ++ [⟨false, c⟩], c) := by
      rw [eachStep]
      simp [h1]
    rw [List.foldl_cons, h2, ih _ c (fun e he => hall e (List.mem_cons_of_mem _ he))]
    simp

/-- C2: for a match (across-elements mode) whose span covers the fragments
`iF` through `iL` (starting inside fragment `iF`, ending inside fragment
`iL`, every covered fragment non-empty, the filter accepting), wrapping
produces exactly one marker unit per covered fragment in document order, the
each callback sees `matchStart` true only on the first unit, and the match
count is incremented exactly once for the whole match (every unit reports the
same incremented count). -/
theorem wrapMatchAcross_spec
    (dict : Dict) (start end_ count iF iL : ℕ)
    (hchain : contiguous dict.nodes)
    (hwf : ∀ f ∈ dict.nodes, f.start ≤ f.end_)
    (hFL : iF ≤ iL) (hlen : iL < dict.nodes.length)
    (hLI : dict.lastIndex ≤ iF) (hLT : dict.lastTextIndex ≤ start)
    (hs1 : (nthFrag dict.nodes iF).start ≤ start)
    (hs2 : start < (nthFrag dict.nodes iF).end_)
    (hse : start < end_)
    (he1 : (nthFrag dict.nodes iL).start < end_)
    (he2 : end_ ≤ (nthFrag dict.nodes iL).end_)
    (hne : ∀ m, iF ≤ m → m ≤ iL →
      (nthFrag dict.nodes m).start < (nthFrag dict.nodes m).end_) :
    (wrapRangeInMappedTextNode (fun _ => true) dict start end_).2.map WrapEvent.index =
      List.range' iF (iL + 1 - iF) ∧
    (processMatchAcross (fun _ => true) dict start end_ count).2.1.length = iL - iF + 1 ∧
    (processMatchAcross (fun _ => true) dict start end_ count).2.1.map EachInfo.matchStart =
      true :: List.replicate (iL - iF) false ∧
    (processMatchAcross (fun _ => true) dict start end_ count).2.2 = count + 1 ∧
    (∀ info ∈ (processMatchAcross (fun _ => true) dict start end_ count).2.1,
      info.count = count + 1) ∧
    (processMatchAcross (fun _ => true) dict start end_ count).1.lastIndex = iL ∧
    (processMatchAcross (fun _ => true) dict start end_ count).1.lastTextIndex = end_ := by
  obtain ⟨nodes', evs, hloop, hidx, hflags⟩ := wrapLoop_full end_ dict.nodes hchain hwf
    iF iL hFL hlen he2 he1 start hs1 hs2 hse hne
    (dict.nodes.length - dict.lastIndex) dict.lastIndex hLI (by omega)
    ⟨dict.nodes, dict.lastIndex, dict.lastTextIndex, []⟩ rfl
  have hwrap : wrapRangeInMappedTextNode (fun _ => true) dict start end_ =
      (⟨dict.value, nodes', iL, end_⟩, evs) := by
    rw [wrapRangeInMappedTextNode, if_neg (by omega), hloop]
    simp
  rcases evs with - | ⟨e0, rest⟩
  · simp at hflags
  have he0 : e0.rangeStart = true := by
    simpa using congrArg List.head? hflags
  have hrest : rest.map WrapEvent.rangeStart = List.replicate (iL - iF) false := by
    simpa using congrArg List.tail hflags
  have hrlen : rest.length = iL - iF := by
    have := congrArg List.length hrest
    simpa using this
  have hrall : ∀ ev ∈ rest, ev.rangeStart = false := by
    rw [← hrlen] at hrest
    exact List.map_eq_replicate_iff.mp hrest
  have hpm : processMatchAcross (fun _ => true) dict start end_ count =
      ((⟨dict.value, nodes', iL, end_⟩ : Dict),
        (⟨true, count + 1⟩ : EachInfo) :: rest.map (fun _ => ⟨false, count + 1⟩),
        count + 1) := by
    rw [processMatchAcross, hwrap]
    have h2 : eachStep ([], count) e0 = ([⟨true, count + 1⟩], count + 1) := by
      rw [eachStep]
      simp [he0]
    simp only [List.foldl_cons, h2]
    rw [eachFold_false rest [⟨true, count + 1⟩] (count + 1) hrall]
    simp
  refine ⟨by rw [hwrap]; exact hidx, ?_, ?_, ?_, ?_, ?_, ?_⟩
  · rw [hpm]; simp [hrlen]
  · rw [hpm]
    simp only [List.map_cons, List.map_map]
    have hcomp : (EachInfo.matchStart ∘ fun (_ : WrapEvent) =>
        (⟨false, count + 1⟩ : EachInfo)) = fun _ => false := rfl
    rw [hcomp, List.map_const', hrlen]
  · rw [hpm]
  · rw [hpm]
    intro info hinfo
    rcases List.mem_cons.mp hinfo with h | h
    · rw [h]
    · obtain ⟨ev, -, hev⟩ := List.mem_map.mp h
      rw [← hev]
  · rw [hpm]
  · rw [hpm]

/-- Closed witness for C2: the spec's cross-fragment example, fragments "wor"
(span 0-3) and "ld" (span 3-5), one match covering [0, 5): two marker units,
`matchStart` true only on the first, count incremented once. -/
theorem wrapMatchAcross_spec_witness :
    (processMatchAcross (fun _ => true)
      ⟨"world".toList, [⟨0, 3, 0⟩, ⟨3, 5, 0⟩], 0, 0⟩ 0 5 0).2.1.map
        EachInfo.matchStart = [true, false] ∧
    (processMatchAcross (fun _ => true)
      ⟨"world".toList, [⟨0, 3, 0⟩, ⟨3, 5, 0⟩], 0, 0⟩ 0 5 0).2.2 = 1 := by
  have h := wrapMatchAcross_spec ⟨"world".toList, [⟨0, 3, 0⟩, ⟨3, 5, 0⟩], 0, 0⟩
    0 5 0 0 1 (by decide) (by decide) (by decide) (by decide) (by decide)
    (by decide) (by decide) (by decide) (by decide) (by decide) (by decide)
    (by intro m h1 h2; interval_cases m <;> decide)
  exact ⟨by simpa using h.2.2.1, by simpa using h.2.2.2.1⟩

theorem buildFrags_contiguous : ∀ (l : List (ℕ × ℕ)) (acc : ℕ), contiguous (buildFrags acc l) := by
  intro l
  induction l with
  | nil => intro acc; exact List.chain'_nil
  | cons p rest ih =>
    intro acc
    rcases p with ⟨len, off⟩
    rw [buildFrags, contiguous]
    cases hr : buildFrags (acc + len + off) rest with
    | nil => simp
    | cons q qs =>
      rw [List.chain'_cons]
      constructor
      · cases rest with
        | nil => simp [buildFrags] at hr
        | cons p2 rest2 =>
          rcases p2 with ⟨len2, off2⟩
          rw [buildFrags] at hr
          have : q = ⟨acc + len + off, acc + len + off + len2, off2⟩ := by
            injection hr with h1 h2
            exact h1.symm
          rw [this]
      · have := ih (acc + len + off)
        rw [contiguous, hr] at this
        exact this

theorem contiguous_replace (nodes : List Frag) (index : ℕ) (n : Frag)
    (hn : nodes[index]? = some n) (pieces : List Frag) (p0 plast : Frag)
    (hhead : pieces.head? = some p0) (hlast : pieces.getLast? = some plast)
    (hp0 : p0.start = n.start) (hplast : plast.end_ + plast.offset = n.end_ + n.offset)
    (hchainp : List.Chain' (fun a b => a.end_ + a.offset = b.start) pieces)
    (hchain : contiguous nodes) :
    contiguous (nodes.take index ++ (pieces ++ nodes.drop (index + 1))) := by
  have hidx : index < nodes.length := by
    by_contra h
    rw [List.getElem?_eq_none (by omega)] at hn
    cases hn
  have hnval : nodes[index] = n := by
    rw [List.getElem?_eq_getElem hidx] at hn
    injection hn
  have hsplit : nodes = nodes.take index ++ (n :: nodes.drop (index + 1)) := by
    conv_lhs => rw [← List.take_append_drop index nodes]
    rw [List.drop_eq_getElem_cons hidx, hnval]
  rw [contiguous] at hchain ⊢
  rw [hsplit, List.chain'_append] at hchain
  obtain ⟨hc1, hc2, hc3⟩ := hchain
  rw [List.chain'_cons'] at hc2
  obtain ⟨hc4, hc5⟩ := hc2
  rw [List.chain'_append]
  refine ⟨hc1, ?_, ?_⟩
  · rw [List.chain'_append]
    refine ⟨hchainp, hc5, ?_⟩
    intro x hx y hy
    rw [hlast] at hx
    rw [Option.mem_some_iff] at hx
    subst hx
    have := hc4 y hy
    omega
  · intro x hx y hy
    rw [List.head?_append, hhead] at hy
    simp at hy
    subst hy
    have := hc3 x hx n (by simp)
    omega

theorem nodes_split_at (nodes : List Frag) (index : ℕ) (n : Frag)
    (hn : nodes[index]? = some n) :
    nodes = nodes.take index ++ (n :: nodes.drop (index + 1)) := by
  have hidx : index < nodes.length := by
    by_contra h
    rw [List.getElem?_eq_none (by omega)] at hn
    cases hn
  have hnval : nodes[index] = n := by
    rw [List.getElem?_eq_getElem hidx] at hn
    injection hn
  conv_lhs => rw [← List.take_append_drop index nodes]
  rw [List.drop_eq_getElem_cons hidx, hnval]

/-- C3 counterexample: a contiguous two-fragment list where the first fragment
carries boundary offset 2; wrapping its last character (local span [1, 2),
reaching the fragment end) zeroes the recorded offsets, so the resulting list
violates `fragments[i].end + offset = fragments[i+1].start`. -/
theorem wrapInsert_contiguity_counterexample :
    contiguous [⟨0, 2, 2⟩, ⟨4, 6, 0⟩] ∧
    (wrapRangeInTextNodeInsert [⟨0, 2, 2⟩, ⟨4, 6, 0⟩] 0 1 2 1).1 =
      [⟨0, 1, 0⟩, ⟨1, 2, 0⟩, ⟨4, 6, 0⟩] ∧
    ¬ contiguous (wrapRangeInTextNodeInsert [⟨0, 2, 2⟩, ⟨4, 6, 0⟩] 0 1 2 1).1 := by
  refine ⟨by decide, by decide, by decide⟩

/-- C3 (amended): fragment collection always builds a contiguous list; a wrap
through `wrapRangeInTextNodeInsert` replaces the original fragment with 0-2
new unmatched fragments and exactly one marked fragment (the `increment`
counts the extra records); and the contiguity invariant is preserved by every
wrap except when the matched run ends exactly at the end of a fragment
carrying a positive boundary offset while starting strictly inside it — in
that excluded case the offsets are zeroed and the invariant breaks, as the
counterexample shows. -/
theorem wrapRangeInTextNodeInsert_amended :
    (∀ (l : List (ℕ × ℕ)) (acc : ℕ), contiguous (buildFrags acc l)) ∧
    (∀ (nodes : List Frag) (index s e start : ℕ) (n : Frag),
      nodes[index]? = some n → start = n.start + s → s < e → e ≤ n.end_ - n.start →
      n.start ≤ n.end_ →
      (∃ (pre post : List Frag) (marked : Frag),
        (wrapRangeInTextNodeInsert nodes index s e start).1 =
          nodes.take index ++ (pre ++ marked :: post ++ nodes.drop (index + 1)) ∧
        marked.start = start ∧ marked.end_ = n.start + e ∧
        pre.length + post.length = (wrapRangeInTextNodeInsert nodes index s e start).2 ∧
        (wrapRangeInTextNodeInsert nodes index s e start).2 ≤ 2 ∧
        (∀ p ∈ pre, p.start = n.start ∧ p.end_ = start) ∧
        (∀ p ∈ post, p.start = n.start + e ∧ p.end_ = n.end_)) ∧
      (contiguous nodes → ¬(0 < s ∧ e = n.end_ - n.start ∧ 0 < n.offset) →
        contiguous (wrapRangeInTextNodeInsert nodes index s e start).1)) := by
  refine ⟨fun l acc => buildFrags_contiguous l acc, ?_⟩
  intro nodes index s e start n hn hstart hlt hle hwfn
  by_cases h0 : s = 0 ∧ e = n.end_ - n.start
  · have hW : wrapRangeInTextNodeInsert nodes index s e start = (nodes, 0) := by
      simp only [wrapRangeInTextNodeInsert, hn, if_pos h0]
    constructor
    · refine ⟨[], [], n, ?_, ?_, ?_, ?_, ?_, ?_, ?_⟩
      · rw [hW]
        simpa using nodes_split_at nodes index n hn
      · omega
      · omega
      · rw [hW]; rfl
      · rw [hW]; omega
      · intro p hp; cases hp
      · intro p hp; cases hp
    · intro hchain _
      rw [hW]
      exact hchain
  · by_cases h1 : s = 0
    · have h2 : e ≠ n.end_ - n.start := fun h => h0 ⟨h1, h⟩
      have hW : wrapRangeInTextNodeInsert nodes index s e start =
          (nodes.take index ++ (⟨start, n.start + e, 0⟩ : Frag) ::
            (⟨n.start + e, n.end_, n.offset⟩ : Frag) :: nodes.drop (index + 1), 1) := by
        simp only [wrapRangeInTextNodeInsert, hn, if_neg h0, if_pos h1]
    -- shape and contiguity for the s = 0, not-ended case
      constructor
      · refine ⟨[], [⟨n.start + e, n.end_, n.offset⟩], ⟨start, n.start + e, 0⟩,
          ?_, rfl, rfl, ?_, ?_, ?_, ?_⟩
        · rw [hW]; simp
        · rw [hW]; rfl
        · rw [hW]; omega
        · intro p hp; cases hp
        · intro p hp
          rcases List.mem_singleton.mp hp with h
          rw [h]
          exact ⟨rfl, rfl⟩
      · intro hchain _
        rw [hW]
        have := contiguous_replace nodes index n hn
          [⟨start, n.start + e, 0⟩, ⟨n.start + e, n.end_, n.offset⟩]
          ⟨start, n.start + e, 0⟩ ⟨n.start + e, n.end_, n.offset⟩
          rfl rfl (by simp; omega) (by simp) (by
            rw [List.chain'_cons]
            exact ⟨by simp, List.chain'_singleton _⟩) hchain
        simpa using this
    · by_cases h2 : e = n.end_ - n.start
      · have hW : wrapRangeInTextNodeInsert nodes index s e start =
            (nodes.take index ++ ({ n with end_ := start, offset := 0 } : Frag) ::
              (⟨start, n.start + e, 0⟩ : Frag) :: nodes.drop (index + 1), 1) := by
          simp only [wrapRangeInTextNodeInsert, hn, if_neg h0, if_neg h1, if_pos h2]
        constructor
        · refine ⟨[{ n with end_ := start, offset := 0 }], [], ⟨start, n.start + e, 0⟩,
            ?_, rfl, rfl, ?_, ?_, ?_, ?_⟩
          · rw [hW]; simp
          · rw [hW]; rfl
          · rw [hW]; omega
          · intro p hp
            rcases List.mem_singleton.mp hp with h
            rw [h]
            exact ⟨rfl, rfl⟩
          · intro p hp; cases hp
        · intro hchain hex
          have hoff : n.offset = 0 := by
            rcases Nat.eq_zero_or_pos n.offset with h | h
            · exact h
            · exact absurd ⟨by omega, h2, h⟩ hex
          rw [hW]
          have := contiguous_replace nodes index n hn
            [{ n with end_ := start, offset := 0 }, ⟨start, n.start + e, 0⟩]
            { n with end_ := start, offset := 0 } ⟨start, n.start + e, 0⟩
            rfl rfl rfl (by simp [hoff]; omega) (by
              rw [List.chain'_cons]
              exact ⟨by simp [hstart], List.chain'_singleton _⟩) hchain
          simpa using this
      · have hW : wrapRangeInTextNodeInsert nodes index s e start =
            (nodes.take index ++ ({ n with end_ := start, offset := 0 } : Frag) ::
              (⟨start, n.start + e, 0⟩ : Frag) ::
              (⟨n.start + e, n.end_, n.offset⟩ : Frag) :: nodes.drop (index + 1), 2) := by
          simp only [wrapRangeInTextNodeInsert, hn, if_neg h0, if_neg h1, if_neg h2]
        constructor
        · refine ⟨[{ n with end_ := start, offset := 0 }],
            [⟨n.start + e, n.end_, n.offset⟩], ⟨start, n.start + e, 0⟩,
            ?_, rfl, rfl, ?_, ?_, ?_, ?_⟩
          · rw [hW]; simp
          · rw [hW]; rfl
          · rw [hW]
          · intro p hp
            rcases List.mem_singleton.mp hp with h
            rw [h]
            exact ⟨rfl, rfl⟩
          · intro p hp
            rcases List.mem_singleton.mp hp with h
            rw [h]
            exact ⟨rfl, rfl⟩
        · intro hchain _
          rw [hW]
          have := contiguous_replace nodes index n hn
            [{ n with end_ := start, offset := 0 }, ⟨start, n.start + e, 0⟩,
              ⟨n.start + e, n.end_, n.offset⟩]
            { n with end_ := start, offset := 0 } ⟨n.start + e, n.end_, n.offset⟩
            rfl rfl rfl (by simp) (by
              rw [List.chain'_cons, List.chain'_cons]
              exact ⟨by simp [hstart], by simp, List.chain'_singleton _⟩) hchain
          simpa using this

theorem wrapRangeFromIndexStep_invalid (filterCb : Frag → Bool) (dict : Dict)
    (rstart rlength : ℤ) (originalLength : ℕ)
    (hv : (checkWhitespaceRanges rstart rlength originalLength dict.value).valid = false) :
    wrapRangeFromIndexStep filterCb dict rstart rlength originalLength = (dict, []) := by
  rw [wrapRangeFromIndexStep]
  simp [hv]

/-- C6: `checkWhitespaceRanges` clips the end to the text length and, when the
reprojected start is within the text, uses exactly the reprojected value; a
range is invalid exactly when a rejection reason is recorded (each rejection
site also invokes the noMatch callback); a range whose clipped span passes the
bounds check but contains no non-whitespace character is rejected with the
distinct whitespace-only reason; and the range step wraps nothing for any
invalid range. -/
theorem checkWhitespaceRanges_spec (rstart rlength : ℤ) (originalLength : ℕ)
    (filterCb : Frag → Bool) (dict : Dict) (c : WsCheck)
    (hc : c = checkWhitespaceRanges rstart rlength originalLength dict.value) :
    (c.valid = false ↔ c.reason.isSome) ∧
    c.end_ ≤ (dict.value.length : ℤ) ∧
    (rstart - ((originalLength : ℤ) - dict.value.length) ≤ (dict.value.length : ℤ) →
      c.start = rstart - ((originalLength : ℤ) - dict.value.length)) ∧
    (¬(c.start < 0 ∨ c.end_ - c.start ≤ 0) →
      ((dict.value.take c.end_.toNat).drop c.start.toNat).all jsSpace = true →
      c.valid = false ∧ c.reason = some RangeReason.whitespaceOnly) ∧
    (c.valid = false →
      wrapRangeFromIndexStep filterCb dict rstart rlength originalLength = (dict, [])) := by
  subst hc
  refine ⟨?_, ?_, ?_, ?_, ?_⟩
  · simp only [checkWhitespaceRanges]
    split_ifs <;> simp
  · simp only [checkWhitespaceRanges]
    split_ifs <;> exact clipMax_le_max _ _
  · intro hsm
    simp only [checkWhitespaceRanges]
    split_ifs <;> exact clipMax_of_le hsm
  · intro hbd hws
    simp only [checkWhitespaceRanges] at hbd hws ⊢
    split_ifs at hbd hws ⊢ with h1 h2
    · exact absurd h1 hbd
    · exact ⟨rfl, rfl⟩
    · simp only [] at hws
      exact absurd hws h2
  · intro hv
    exact wrapRangeFromIndexStep_invalid filterCb dict rstart rlength originalLength hv

/-- Closed witness for C6: over the text "ab   cd" the range \{start 2,
length 3\} spans only whitespace; it is rejected with the whitespace-only
reason and the range step wraps nothing. -/
theorem checkWhitespaceRanges_spec_witness :
    (checkWhitespaceRanges 2 3 7 "ab   cd".toList).valid = false ∧
    (checkWhitespaceRanges 2 3 7 "ab   cd".toList).reason =
      some RangeReason.whitespaceOnly ∧
    wrapRangeFromIndexStep (fun _ => true)
      ⟨"ab   cd".toList, [⟨0, 7, 0⟩], 0, 0⟩ 2 3 7 =
      (⟨"ab   cd".toList, [⟨0, 7, 0⟩], 0, 0⟩, []) := by
  have h := checkWhitespaceRanges_spec 2 3 7 (fun _ => true)
    ⟨"ab   cd".toList, [⟨0, 7, 0⟩], 0, 0⟩
    (checkWhitespaceRanges 2 3 7 "ab   cd".toList) rfl
  have h4 := h.2.2.2.1 (by decide) (by decide)
  exact ⟨h4.1, h4.2, h.2.2.2.2 h4.1⟩

/-- Closed witness for C3 (amended): a wrap strictly inside a fragment whose
match does not reach the fragment end splits it into two unmatched pieces and
one marked piece and preserves contiguity. -/
theorem wrapRangeInTextNodeInsert_amended_witness :
    contiguous (wrapRangeInTextNodeInsert
      [⟨0, 2, 0⟩, ⟨2, 5, 1⟩, ⟨6, 9, 0⟩] 1 1 2 3).1 ∧
    (wrapRangeInTextNodeInsert [⟨0, 2, 0⟩, ⟨2, 5, 1⟩, ⟨6, 9, 0⟩] 1 1 2 3).2 = 2 := by
  have h := wrapRangeInTextNodeInsert_amended.2
    [⟨0, 2, 0⟩, ⟨2, 5, 1⟩, ⟨6, 9, 0⟩] 1 1 2 3 ⟨2, 5, 1⟩
    (by decide) (by decide) (by decide) (by decide) (by decide)
  exact ⟨h.2 (by decide) (by decide), by decide⟩

/-! ## C7: synonym substitution -/

/-- Lexicographic comparison of strings; the JS string relation `a > b` used
by `sortByLength`'s comparator is `ltList b a`. -/
def ltList : List Char → List Char → Bool
  | [], [] => false
  | [], _ :: _ => true
  | _ :: _, [] => false
  | a :: as, b :: bs => if a < b then true else if b < a then false else ltList as bs

theorem ltList_irrefl (a : List Char) : ltList a a = false := by
  induction a with
  | nil => rfl
  | cons c r ih => rw [ltList, if_neg (lt_irrefl c), if_neg (lt_irrefl c)]; exact ih

theorem ltList_asymm : ∀ a b : List Char, ltList a b = true → ltList b a = false := by
  intro a
  induction a with
  | nil =>
    intro b h
    cases b with
    | nil => cases h
    | cons d s => rfl
  | cons c r ih =>
    intro b h
    cases b with
    | nil => cases h
    | cons d s =>
      rw [ltList] at h ⊢
      rcases lt_trichotomy c d with h1 | h1 | h1
      · rw [if_neg (asymm h1), if_pos h1]
      · subst h1
        rw [if_neg (lt_irrefl c), if_neg (lt_irrefl c)] at h ⊢
        exact ih s h
      · rw [if_neg (asymm h1), if_pos h1] at h
        cases h

theorem ltList_trans : ∀ a b c : List Char,
    ltList a b = true → ltList b c = true → ltList a c = true := by
  intro a
  induction a with
  | nil =>
    intro b c h1 h2
    cases b with
    | nil => cases h1
    | cons d s =>
      cases c with
      | nil => cases h2
      | cons e t => rfl
  | cons x r ih =>
    intro b c h1 h2
    cases b with
    | nil => cases h1
    | cons d s =>
      cases c with
      | nil => cases h2
      | cons e t =>
        rw [ltList] at h1 h2 ⊢
        rcases lt_trichotomy x d with hxd | hxd | hxd
        · rcases lt_trichotomy d e with hde | hde | hde
          · rw [if_pos (lt_trans hxd hde)]
          · subst hde; rw [if_pos hxd]
          · rw [if_neg (asymm hde), if_pos hde] at h2; cases h2
        · subst hxd
          rw [if_neg (lt_irrefl x), if_neg (lt_irrefl x)] at h1
          rcases lt_trichotomy x e with hxe | hxe | hxe
          · rw [if_pos hxe]
          · subst hxe
            rw [if_neg (lt_irrefl x), if_neg (lt_irrefl x)] at h2 ⊢
            exact ih s t h1 h2
          · rw [if_neg (asymm hxe), if_pos hxe] at h2; cases h2
        · rw [if_neg (asymm hxd), if_pos hxd] at h1; cases h1

theorem ltList_total (a b : List Char) :
    ltList a b = true ∨ ltList b a = true ∨ a = b := by
  induction a generalizing b with
  | nil =>
    cases b with
    | nil => exact Or.inr (Or.inr rfl)
    | cons d s => exact Or.inl rfl
  | cons c r ih =>
    cases b with
    | nil => exact Or.inr (Or.inl rfl)
    | cons d s =>
      rcases lt_trichotomy c d with h1 | h1 | h1
      · exact Or.inl (by rw [ltList, if_pos h1])
      · subst h1
        rcases ih s with h2 | h2 | h2
        · exact Or.inl (by rw [ltList, if_neg (lt_irrefl c), if_neg (lt_irrefl c)]; exact h2)
        · exact Or.inr (Or.inl (by
            rw [ltList, if_neg (lt_irrefl c), if_neg (lt_irrefl c)]; exact h2))
        · exact Or.inr (Or.inr (by rw [h2]))
      · exact Or.inr (Or.inl (by rw [ltList, if_pos h1]))

/-- The `sortByLength` comparator `(a, b) => a.length === b.length ?
(a > b ? 1 : -1) : b.length - a.length` as the relation "comparator ≤ 0":
longest first, equal lengths ordered lexicographically ascending. -/
def sortLe (a b : List Char) : Prop :=
  b.length < a.length ∨ (a.length = b.length ∧ ltList b a = false)

instance : DecidableRel sortLe := fun a b =>
  inferInstanceAs (Decidable (b.length < a.length ∨
    (a.length = b.length ∧ ltList b a = false)))

instance : IsTotal (List Char) sortLe := by
  constructor
  intro a b
  rcases Nat.lt_trichotomy a.length b.length with h | h | h
  · exact Or.inr (Or.inl h)
  · rcases ltList_total a b with h2 | h2 | h2
    · exact Or.inl (Or.inr ⟨h, ltList_asymm a b h2⟩)
    · exact Or.inr (Or.inr ⟨h.symm, ltList_asymm b a h2⟩)
    · exact Or.inl (Or.inr ⟨h, by rw [h2, ltList_irrefl]⟩)
  · exact Or.inl (Or.inl h)

instance : IsTrans (List Char) sortLe := by
  constructor
  intro a b c h1 h2
  rcases h1 with h1 | ⟨h1a, h1b⟩
  · rcases h2 with h2 | ⟨h2a, h2b⟩
    · exact Or.inl (by omega)
    · exact Or.inl (by omega)
  · rcases h2 with h2 | ⟨h2a, h2b⟩
    · exact Or.inl (by omega)
    · refine Or.inr ⟨by omega, ?_⟩
      by_contra hcc
      have hca : ltList c a = true := by
        cases hh : ltList c a
        · exact absurd hh hcc
        · rfl
      rcases ltList_total a b with hab | hab | hab
      · have := ltList_trans c a b hca hab
        rw [this] at h2b; cases h2b
      · rw [hab] at h1b; cases h1b
      · subst hab
        rw [hca] at h2b; cases h2b

/-- Embedding of the `Array.sort` call of `createSynonymsRegExp`
(`RegExpCreator.sortByLength`, src/dist/mark.umd.js:402-407); JavaScript
leaves the sort algorithm unspecified, and the comparator's order determines
the output uniquely here, so an arbitrary correct comparison sort models it. -/
def sortByLength (l : List (List Char)) : List (List Char) :=
  List.insertionSort sortLe l

/-- Case canonicalization used by the `i` flag of the synonym-search regex. -/
def canon (ci : Bool) (c : Char) : Char := if ci then c.toLower else c

/-- The literal alternative `alt` matches at the head of `s` under the case
rule. -/
def matchesAt (ci : Bool) : List Char → List Char → Bool
  | [], _ => true
  | _ :: _, [] => false
  | a :: as, b :: bs => canon ci a = canon ci b && matchesAt ci as bs

/-- The first alternative of the alternation that matches at the head of `s`
(regex alternation takes the leftmost alternative). -/
def firstAlt (ci : Bool) (alts : List (List Char)) (s : List Char) :
    Option (List Char) :=
  alts.find? (fun a => !a.isEmpty && matchesAt ci a s)

theorem firstAlt_some_ne_nil {ci : Bool} {alts : List (List Char)}
    {s a : List Char} (h : firstAlt ci alts s = some a) : a ≠ [] := by
  have := List.find?_some h
  intro hnil
  subst hnil
  simp at this

/-- Embedding of the global regex replace of `createSynonymsRegExp`
(src/dist/mark.umd.js:427): the pattern is an alternation of (escaped)
literal alternatives, so the scan replaces, left to right, each leftmost
occurrence of the first matching alternative by the replacement string and
resumes after it. -/
def replaceAlternation (ci : Bool) (alts : List (List Char)) (repl : List Char) :
    List Char → List Char
  | [] => []
  | c :: rest =>
    match h : firstAlt ci alts (c :: rest) with
    | some a => repl ++ replaceAlternation ci alts repl (List.drop a.length (c :: rest))
    | none => c :: replaceAlternation ci alts repl rest
termination_by s => s.length
decreasing_by
  · have hne := firstAlt_some_ne_nil h
    have : 1 ≤ a.length := by
      cases a with
      | nil => exact absurd rfl hne
      | cons x xs => simp
    simp only [List.length_drop, List.length_cons]
    omega
  · simp only [List.length_cons]
    omega

theorem replaceAlternation_nil (ci : Bool) (alts : List (List Char))
    (repl : List Char) : replaceAlternation ci alts repl [] = [] := by
  rw [replaceAlternation]

theorem replaceAlternation_cons_none (ci : Bool) (alts : List (List Char))
    (repl : List Char) (c : Char) (rest : List Char)
    (h : firstAlt ci alts (c :: rest) = none) :
    replaceAlternation ci alts repl (c :: rest) =
      c :: replaceAlternation ci alts repl rest := by
  rw [replaceAlternation, h]

theorem replaceAlternation_cons_some (ci : Bool) (alts : List (List Char))
    (repl : List Char) (c : Char) (rest a : List Char)
    (h : firstAlt ci alts (c :: rest) = some a) :
    replaceAlternation ci alts repl (c :: rest) =
      repl ++ replaceAlternation ci alts repl (List.drop a.length (c :: rest)) := by
  rw [replaceAlternation, h]

/-- Embedding of one `for (let index in syn)` iteration of
`RegExpCreator.createSynonymsRegExp` (src/dist/mark.umd.js:411-432): the
alternative set is the key plus its value(s), sorted by the length comparator,
wildcard-placeholded when wildcards are enabled, escaped, and blanks dropped;
when at least two alternatives remain, every literal occurrence of an
alternative in the term is replaced by the non-capturing alternation.  (The
search regex is built from doubly-escaped members, which as a pattern matches
exactly the singly-escaped literal members kept here.)  `wildcardFn` is the
wildcard placeholding stage, applied when wildcards are enabled. -/
def processSynGroup (wildcardFn : Option (List Char → List Char))
    (caseSensitive : Bool) (key : List Char) (vals : List (List Char))
    (str : List Char) : List Char :=
  let keys := ((sortByLength (key :: vals)).map (fun k =>
    escapeStr (match wildcardFn with | some f => f k | none => k))).filter (· ≠ [])
  if 1 < keys.length then
    replaceAlternation (!caseSensitive) keys
      ('(' :: '?' :: ':' :: (List.intercalate ['|'] keys ++ [')'])) str
  else str

/-- Embedding of `RegExpCreator.createSynonymsRegExp`: fold over the synonym
key/value groups. -/
def createSynonymsRegExp (wildcardFn : Option (List Char → List Char))
    (caseSensitive : Bool) (syn : List (List Char × List (List Char)))
    (str : List Char) : List Char :=
  syn.foldl (fun s g => processSynGroup wildcardFn caseSensitive g.1 g.2 s) str

theorem firstAlt_nil (ci : Bool) (alts : List (List Char)) :
    firstAlt ci alts [] = none := by
  induction alts with
  | nil => rfl
  | cons a rest ih =>
    rw [firstAlt, List.find?]
    cases a with
    | nil => simpa [firstAlt] using ih
    | cons x xs =>
      rw [show (!(x :: xs).isEmpty && matchesAt ci (x :: xs) []) = false by
        rw [matchesAt]; simp]
      simpa [firstAlt] using ih

/-- C7: the alternative set of a synonym group is the key plus its value(s),
sorted longest first with equal-length ties broken lexicographically ascending
(a permutation ordered by the comparator relation `sortLe`); each member is
(wildcard-placeholded and) escaped, and when at least two non-blank members
remain the term is rewritten by the literal-alternation replace with the
non-capturing alternation of the whole set, case-insensitively exactly when
`caseSensitive` is false; the replace leaves a term without occurrences
unchanged and, at each step, replaces the leftmost occurrence with the first
matching alternative and resumes after it. -/
theorem createSynonymsRegExp_spec :
    (∀ l : List (List Char), List.Perm (sortByLength l) l) ∧
    (∀ l : List (List Char), (sortByLength l).Pairwise sortLe) ∧
    (∀ (wildcardFn : Option (List Char → List Char)) (cs : Bool)
        (key : List Char) (vals : List (List Char)) (str : List Char),
      1 < (((sortByLength (key :: vals)).map (fun k =>
          escapeStr (match wildcardFn with | some f => f k | none => k))).filter
            (· ≠ [])).length →
      processSynGroup wildcardFn cs key vals str =
        replaceAlternation (!cs)
          (((sortByLength (key :: vals)).map (fun k =>
            escapeStr (match wildcardFn with | some f => f k | none => k))).filter
              (· ≠ []))
          ('(' :: '?' :: ':' :: (List.intercalate ['|']
            (((sortByLength (key :: vals)).map (fun k =>
              escapeStr (match wildcardFn with | some f => f k | none => k))).filter
                (· ≠ []))
            ++ [')'])) str) ∧
    (∀ (ci : Bool) (alts : List (List Char)) (repl s : List Char),
      (∀ p, firstAlt ci alts (s.drop p) = none) →
      replaceAlternation ci alts repl s = s) ∧
    (∀ (ci : Bool) (alts : List (List Char)) (repl u v a : List Char),
      (∀ p, p < u.length → firstAlt ci alts (u.drop p ++ v) = none) →
      firstAlt ci alts v = some a →
      replaceAlternation ci alts repl (u ++ v) =
        u ++ repl ++ replaceAlternation ci alts repl (v.drop a.length)) := by
  refine ⟨?_, ?_, ?_, ?_, ?_⟩
  · exact fun l => List.perm_insertionSort sortLe l
  · exact fun l => List.sorted_insertionSort sortLe l
  · intro wildcardFn cs key vals str hlen
    rw [processSynGroup]
    rw [if_pos hlen]
  · intro ci alts repl s
    induction s with
    | nil => intro _; exact replaceAlternation_nil ci alts repl
    | cons c rest ih =>
      intro hnone
      rw [replaceAlternation_cons_none ci alts repl c rest (by
        have := hnone 0
        simpa using this)]
      rw [ih (fun p => by
        have := hnone (p + 1)
        simpa [List.drop_succ_cons] using this)]
  · intro ci alts repl u
    induction u with
    | nil =>
      intro v a _ hv
      cases v with
      | nil => rw [firstAlt_nil] at hv; cases hv
      | cons c rest =>
        rw [List.nil_append, replaceAlternation_cons_some ci alts repl c rest a hv,
          List.nil_append]
    | cons c u2 ih =>
      intro v a hu hv
      have h0 : firstAlt ci alts ((c :: u2) ++ v) = none := by
        have := hu 0 (by simp)
        simpa using this
      rw [List.cons_append, replaceAlternation_cons_none ci alts repl _ _
        (by rw [← List.cons_append]; exact h0)]
      rw [ih v a (fun p hp => by
        have := hu (p + 1) (by simpa using hp)
        simpa [List.drop_succ_cons] using this) hv]
      simp

/-- Closed witness for C7: the spec's example group (key "lorem", value
"ipsum"): equal lengths are ordered lexicographically, the whole set forms
the non-capturing alternation, and the term "lorem" is rewritten to it. -/
theorem createSynonymsRegExp_spec_witness :
    sortByLength ["lorem".toList, "ipsum".toList] =
      ["ipsum".toList, "lorem".toList] ∧
    List.Perm (sortByLength ["lorem".toList, "ipsum".toList])
      ["lorem".toList, "ipsum".toList] ∧
    processSynGroup none false "lorem".toList ["ipsum".toList] "lorem".toList =
      "(?:ipsum|lorem)".toList := by
  refine ⟨by decide, createSynonymsRegExp_spec.1 _, ?_⟩
  have h3 := createSynonymsRegExp_spec.2.2.1 none false "lorem".toList
    ["ipsum".toList] "lorem".toList (by decide)
  have hkeys : (((sortByLength ("lorem".toList :: ["ipsum".toList])).map (fun k =>
      escapeStr (match (none : Option (List Char → List Char)) with
        | some f => f k | none => k))).filter (· ≠ [])) =
      ["ipsum".toList, "lorem".toList] := by decide
  rw [hkeys] at h3
  have hrepl : ('(' :: '?' :: ':' :: (List.intercalate ['|']
      ["ipsum".toList, "lorem".toList] ++ [')'])) = "(?:ipsum|lorem)".toList := by
    decide
  rw [hrepl] at h3
  rw [h3]
  simp only [Bool.not_false]
  have h5 := createSynonymsRegExp_spec.2.2.2.2 true
    ["ipsum".toList, "lorem".toList] "(?:ipsum|lorem)".toList []
    "lorem".toList "lorem".toList (by intro p hp; simp at hp) (by decide)
  simp only [List.nil_append] at h5
  rw [h5]
  rw [show List.drop ("lorem".toList).length "lorem".toList = [] by decide]
  rw [replaceAlternation_nil]
  simp


/-! ## C4: collectRegexGroupIndexes -/

/-- The test `reg.test(str.substring(i))` of `collectRegexGroupIndexes`
(src/dist/mark.umd.js:1136, `reg = /^\(\?<(?![=!])|^\((?!\?)/`): the suffix
starts a capturing group — either a named group `(?<` not followed by `=`/`!`,
or a plain `(` not followed by `?`. -/
def isCapturingAt (l : List Char) : Bool :=
  decide (l[0]? = some '(') &&
    (decide (l[1]? ≠ some '?') ||
     (decide (l[2]? = some '<') && decide (l[3]? ≠ some '=') &&
      decide (l[3]? ≠ some '!')))

/-- The scanning loop of `Mark.collectRegexGroupIndexes`
(src/dist/mark.umd.js:1132-1164): `groups` accumulates the reported indexes,
`stack` records for each currently open group whether it was counted as
capturing, `index` is the next capture-group number, `brackets` the number of
open capturing groups, `charsRange` whether the scan is inside `[...]`.
A backslash skips the following character (also inside a class). -/
def collectLoop : List Char → List ℕ → List Bool → ℕ → ℤ → Bool → List ℕ
  | [], groups, _, _, _, _ => groups
  | c :: rest, groups, stack, index, brackets, charsRange =>
    if c = '\\' then
      match rest with
      | [] => groups
      | _ :: rest2 => collectLoop rest2 groups stack index brackets charsRange
    else if charsRange then
      if c = ']' then collectLoop rest groups stack index brackets false
      else collectLoop rest groups stack index brackets true
    else if c = '(' then
      if isCapturingAt (c :: rest) then
        collectLoop rest (if brackets = 0 then groups ++ [index] else groups)
          (true :: stack) (index + 1) (brackets + 1) false
      else collectLoop rest groups (false :: stack) index brackets false
    else if c = ')' then
      match stack with
      | true :: s => collectLoop rest groups s index (brackets - 1) false
      | false :: s => collectLoop rest groups s index brackets false
      | [] => collectLoop rest groups [] index brackets false
    else if c = '[' then collectLoop rest groups stack index brackets true
    else collectLoop rest groups stack index brackets false

/-- Embedding of `Mark.collectRegexGroupIndexes(regex)`
(src/dist/mark.umd.js:1132-1164) on the regex source string. -/
def collectRegexGroupIndexes (source : List Char) : List ℕ :=
  collectLoop source [] [] 1 0 false

/-! Ground truth: an abstract syntax of regex sources.  An element is a
literal character, an escape `\c`, a character class `[...]`, a capturing
group `(...)`, a named capturing group `(?<name>...)`, a non-capturing group
`(?:...)`, a lookahead `(?=...)`/`(?!...)` or a lookbehind
`(?<=...)`/`(?<!...)`; a tree is a sequence of elements. -/

mutual
inductive RElem where
  | lit (c : Char)
  | esc (c : Char)
  | cls (content : List Char)
  | grp (inner : RTree)
  | named (nm : List Char) (inner : RTree)
  | ncg (inner : RTree)
  | lka (neg : Bool) (inner : RTree)
  | lkb (neg : Bool) (inner : RTree)

inductive RTree where
  | eps
  | cons (e : RElem) (t : RTree)
end

mutual
/-- The source text of a regex element. -/
def renderE : RElem → List Char
  | .lit c => [c]
  | .esc c => ['\\', c]
  | .cls content => '[' :: content ++ [']']
  | .grp inner => '(' :: renderT inner ++ [')']
  | .named nm inner => '(' :: '?' :: '<' :: nm ++ '>' :: renderT inner ++ [')']
  | .ncg inner => '(' :: '?' :: ':' :: renderT inner ++ [')']
  | .lka neg inner =>
      '(' :: '?' :: (if neg then '!' else '=') :: renderT inner ++ [')']
  | .lkb neg inner =>
      '(' :: '?' :: '<' :: (if neg then '!' else '=') :: renderT inner ++ [')']

/-- The source text of a regex sequence. -/
def renderT : RTree → List Char
  | .eps => []
  | .cons e t => renderE e ++ renderT t
end

mutual
/-- The number of capturing groups (at any depth) in an element: every
plain or named capturing open parenthesis counts for runtime numbering. -/
def numCapsE : RElem → ℕ
  | .lit _ => 0
  | .esc _ => 0
  | .cls _ => 0
  | .grp inner => 1 + numCapsT inner
  | .named _ inner => 1 + numCapsT inner
  | .ncg inner => numCapsT inner
  | .lka _ inner => numCapsT inner
  | .lkb _ inner => numCapsT inner

/-- The number of capturing groups in a sequence. -/
def numCapsT : RTree → ℕ
  | .eps => 0
  | .cons e t => numCapsE e + numCapsT t
end

mutual
/-- The runtime indexes of the top-level capturing groups of an element,
`i` being the runtime number of the next capturing open parenthesis:
capturing groups stop the descent, non-capturing and lookaround groups are
transparent. -/
def topIdxE : RElem → ℕ → List ℕ
  | .lit _, _ => []
  | .esc _, _ => []
  | .cls _, _ => []
  | .grp _, i => [i]
  | .named _ _, i => [i]
  | .ncg inner, i => topIdxT inner i
  | .lka _ inner, i => topIdxT inner i
  | .lkb _ inner, i => topIdxT inner i

/-- The runtime indexes of the top-level capturing groups of a sequence in
left-to-right textual order. -/
def topIdxT : RTree → ℕ → List ℕ
  | .eps, _ => []
  | .cons e t, i => topIdxE e i ++ topIdxT t (i + numCapsE e)
end

/-- The characters that steer the scanner. -/
def scanSpecials : List Char := ['\\', '(', ')', '[', ']']

mutual
/-- Well-formedness of an element as regex source text: literals and name
characters are not scanner specials, class content has no `]` or `\`, and a
plain group's body does not start with `?`. -/
def wfE : RElem → Bool
  | .lit c => decide (c ∉ scanSpecials)
  | .esc _ => true
  | .cls content => content.all (fun c => decide (c ≠ ']') && decide (c ≠ '\\'))
  | .grp inner => decide ((renderT inner).head? ≠ some '?') && wfT inner
  | .named nm inner =>
      decide (nm ≠ []) && nm.all (fun c => decide (c ∉ scanSpecials)) &&
      decide (nm.head? ≠ some '=') && decide (nm.head? ≠ some '!') && wfT inner
  | .ncg inner => wfT inner
  | .lka _ inner => wfT inner
  | .lkb _ inner => wfT inner

/-- Well-formedness of a sequence. -/
def wfT : RTree → Bool
  | .eps => true
  | .cons e t => wfE e && wfT t
end


theorem isCapturingAt_plain (l : List Char) (h : l.head? ≠ some '?') :
    isCapturingAt ('(' :: l) = true := by
  rw [isCapturingAt]
  rw [List.head?_eq_getElem?] at h
  simp [h]

theorem isCapturingAt_q (c : Char) (l : List Char) (h : c ≠ '<') :
    isCapturingAt ('(' :: '?' :: c :: l) = false := by
  rw [isCapturingAt]
  simp [h]

theorem isCapturingAt_lkb (c : Char) (l : List Char) (h : c = '=' ∨ c = '!') :
    isCapturingAt ('(' :: '?' :: '<' :: c :: l) = false := by
  rw [isCapturingAt]
  rcases h with h | h <;> simp [h]

theorem isCapturingAt_named (c : Char) (l : List Char) (h1 : c ≠ '=')
    (h2 : c ≠ '!') : isCapturingAt ('(' :: '?' :: '<' :: c :: l) = true := by
  rw [isCapturingAt]
  simp [h1, h2]

theorem collectLoop_neutral (c : Char) (hc : c ∉ scanSpecials)
    (rest : List Char) (groups : List ℕ) (stack : List Bool) (index : ℕ)
    (brackets : ℤ) :
    collectLoop (c :: rest) groups stack index brackets false =
      collectLoop rest groups stack index brackets false := by
  simp only [scanSpecials, List.mem_cons, List.mem_singleton, not_or] at hc
  obtain ⟨h1, h2, h3, h4, h5⟩ := hc
  rw [collectLoop.eq_def]
  simp only []
  rw [if_neg h1]
  simp only [Bool.false_eq_true, if_false]
  rw [if_neg h2, if_neg h3, if_neg h4]

theorem collectLoop_class (c : Char) (h1 : c ≠ ']') (h2 : c ≠ '\\')
    (rest : List Char) (groups : List ℕ) (stack : List Bool) (index : ℕ)
    (brackets : ℤ) :
    collectLoop (c :: rest) groups stack index brackets true =
      collectLoop rest groups stack index brackets true := by
  rw [collectLoop.eq_def]
  simp only []
  rw [if_neg h2]
  simp only [if_true]
  rw [if_neg h1]

theorem scanNeutral (l : List Char) (h : ∀ c ∈ l, c ∉ scanSpecials)
    (rest : List Char) (groups : List ℕ) (stack : List Bool) (index : ℕ)
    (brackets : ℤ) :
    collectLoop (l ++ rest) groups stack index brackets false =
      collectLoop rest groups stack index brackets false := by
  induction l with
  | nil => rw [List.nil_append]
  | cons c t ih =>
    rw [List.cons_append, collectLoop_neutral c (h c (by simp)) _ _ _ _ _]
    exact ih (fun d hd => h d (by simp [hd]))

theorem scanClass (l : List Char) (h : ∀ c ∈ l, c ≠ ']' ∧ c ≠ '\\')
    (rest : List Char) (groups : List ℕ) (stack : List Bool) (index : ℕ)
    (brackets : ℤ) :
    collectLoop (l ++ rest) groups stack index brackets true =
      collectLoop rest groups stack index brackets true := by
  induction l with
  | nil => rw [List.nil_append]
  | cons c t ih =>
    obtain ⟨h1, h2⟩ := h c (by simp)
    rw [List.cons_append, collectLoop_class c h1 h2 _ _ _ _ _]
    exact ih (fun d hd => h d (by simp [hd]))


theorem scanCapGroup (pre : List Char) (hpre : ∀ c ∈ pre, c ∉ scanSpecials)
    (inner : RTree)
    (IH : ∀ (rest : List Char) (groups : List ℕ) (stack : List Bool)
      (index : ℕ) (brackets : ℤ), 0 ≤ brackets →
      collectLoop (renderT inner ++ rest) groups stack index brackets false =
        collectLoop rest
          (groups ++ if brackets = 0 then topIdxT inner index else [])
          stack (index + numCapsT inner) brackets false)
    (rest : List Char) (groups : List ℕ) (stack : List Bool) (index : ℕ)
    (brackets : ℤ) (hb : 0 ≤ brackets)
    (hcap : isCapturingAt ('(' :: (pre ++ (renderT inner ++ (')' :: rest)))) =
      true) :
    collectLoop ('(' :: (pre ++ (renderT inner ++ (')' :: rest)))) groups stack
        index brackets false =
      collectLoop rest (groups ++ if brackets = 0 then [index] else []) stack
        (index + (1 + numCapsT inner)) brackets false := by
  rw [collectLoop.eq_def]
  simp only []
  rw [if_neg (show ('(' : Char) ≠ '\\' by decide)]
  simp only [Bool.false_eq_true, if_false]
  simp only [if_true]
  rw [if_pos hcap]
  rw [scanNeutral pre hpre _ _ _ _ _]
  rw [IH (')' :: rest) _ _ _ _ (by omega)]
  rw [if_neg (show ¬(brackets + 1 = 0) by omega), List.append_nil]
  rw [collectLoop.eq_def]
  simp only []
  rw [if_neg (show (')' : Char) ≠ '\\' by decide)]
  simp only [Bool.false_eq_true, if_false]
  rw [if_neg (show (')' : Char) ≠ '(' by decide)]
  simp only [if_true]
  have e1 : brackets + 1 - 1 = brackets := by omega
  have e2 : index + 1 + numCapsT inner = index + (1 + numCapsT inner) := by
    omega
  rw [e1, e2]
  by_cases hbz : brackets = 0
  · rw [if_pos hbz, if_pos hbz]
  · rw [if_neg hbz, if_neg hbz, List.append_nil]

theorem scanNCGroup (pre : List Char) (hpre : ∀ c ∈ pre, c ∉ scanSpecials)
    (inner : RTree)
    (IH : ∀ (rest : List Char) (groups : List ℕ) (stack : List Bool)
      (index : ℕ) (brackets : ℤ), 0 ≤ brackets →
      collectLoop (renderT inner ++ rest) groups stack index brackets false =
        collectLoop rest
          (groups ++ if brackets = 0 then topIdxT inner index else [])
          stack (index + numCapsT inner) brackets false)
    (rest : List Char) (groups : List ℕ) (stack : List Bool) (index : ℕ)
    (brackets : ℤ) (hb : 0 ≤ brackets)
    (hcap : isCapturingAt ('(' :: (pre ++ (renderT inner ++ (')' :: rest)))) =
      false) :
    collectLoop ('(' :: (pre ++ (renderT inner ++ (')' :: rest)))) groups stack
        index brackets false =
      collectLoop rest
        (groups ++ if brackets = 0 then topIdxT inner index else [])
        stack (index + numCapsT inner) brackets false := by
  rw [collectLoop.eq_def]
  simp only []
  rw [if_neg (show ('(' : Char) ≠ '\\' by decide)]
  simp only [Bool.false_eq_true, if_false]
  simp only [if_true]
  rw [hcap]
  simp only [Bool.false_eq_true, if_false]
  rw [scanNeutral pre hpre _ _ _ _ _]
  rw [IH (')' :: rest) _ _ _ _ hb]
  rw [collectLoop.eq_def]
  simp only []
  rw [if_neg (show (')' : Char) ≠ '\\' by decide)]
  simp only [Bool.false_eq_true, if_false]
  rw [if_neg (show (')' : Char) ≠ '(' by decide)]
  simp only [if_true]


mutual

theorem scanE : ∀ (e : RElem), wfE e = true →
    ∀ (rest : List Char) (groups : List ℕ) (stack : List Bool) (index : ℕ)
      (brackets : ℤ), 0 ≤ brackets →
    collectLoop (renderE e ++ rest) groups stack index brackets false =
      collectLoop rest (groups ++ if brackets = 0 then topIdxE e index else [])
        stack (index + numCapsE e) brackets false
  | .lit c, hwf, rest, groups, stack, index, brackets, hb => by
    simp only [wfE, decide_eq_true_eq] at hwf
    simp only [renderE, topIdxE, numCapsE, List.singleton_append]
    rw [collectLoop_neutral c hwf _ _ _ _ _]
    simp only [ite_self, List.append_nil, Nat.add_zero]
  | .esc c, hwf, rest, groups, stack, index, brackets, hb => by
    simp only [renderE, topIdxE, numCapsE, List.cons_append]
    rw [collectLoop.eq_def]
    simp only []
    simp only [if_true, List.nil_append, ite_self, List.append_nil,
      Nat.add_zero]
  | .cls content, hwf, rest, groups, stack, index, brackets, hb => by
    simp only [wfE, List.all_eq_true, Bool.and_eq_true, decide_eq_true_eq]
      at hwf
    simp only [renderE, topIdxE, numCapsE, List.cons_append, List.append_assoc,
      List.singleton_append]
    rw [collectLoop.eq_def]
    simp only []
    rw [if_neg (show ('[' : Char) ≠ '\\' by decide)]
    simp only [Bool.false_eq_true, if_false]
    rw [if_neg (show ('[' : Char) ≠ '(' by decide),
      if_neg (show ('[' : Char) ≠ ')' by decide)]
    simp only [if_true, List.nil_append]
    rw [scanClass content (fun c hc => hwf c hc) _ _ _ _ _]
    rw [collectLoop.eq_def]
    simp only []
    rw [if_neg (show (']' : Char) ≠ '\\' by decide)]
    simp only [if_true]
    simp only [ite_self, List.append_nil, Nat.add_zero]
  | .grp inner, hwf, rest, groups, stack, index, brackets, hb => by
    simp only [wfE, Bool.and_eq_true, decide_eq_true_eq] at hwf
    obtain ⟨hhead, hwfT⟩ := hwf
    have hcap : isCapturingAt
        ('(' :: ([] ++ (renderT inner ++ (')' :: rest)))) = true := by
      rw [List.nil_append]
      apply isCapturingAt_plain
      cases hr : renderT inner with
      | nil => simp
      | cons a t =>
        rw [hr] at hhead
        simp only [List.cons_append, List.head?_cons]
        simpa using hhead
    have h := scanCapGroup [] (by simp) inner (scanT inner hwfT) rest groups
      stack index brackets hb hcap
    simp only [List.nil_append] at h
    simp only [renderE, topIdxE, numCapsE, List.cons_append, List.append_assoc,
      List.singleton_append]
    exact h
  | .named nm inner, hwf, rest, groups, stack, index, brackets, hb => by
    simp only [wfE, Bool.and_eq_true, decide_eq_true_eq, List.all_eq_true]
      at hwf
    obtain ⟨⟨⟨⟨hne, hall⟩, he⟩, hx⟩, hwfT⟩ := hwf
    cases nm with
    | nil => exact absurd rfl hne
    | cons n0 nm2 =>
      simp only [List.head?_cons, Option.some.injEq] at he hx
      have hpre : ∀ c ∈ '?' :: '<' :: ((n0 :: nm2) ++ ['>']),
          c ∉ scanSpecials := by
        intro c hc
        simp only [List.mem_cons, List.mem_append, List.mem_singleton] at hc
        rcases hc with h | h | (h | h) | h | h
        · subst h; decide
        · subst h; decide
        · rw [h]; exact hall n0 (by simp)
        · exact hall c (by simp [h])
        · subst h; decide
        · exact absurd h (List.not_mem_nil c)
      have hcap : isCapturingAt ('(' :: (('?' :: '<' :: ((n0 :: nm2) ++ ['>']))
          ++ (renderT inner ++ (')' :: rest)))) = true := by
        simp only [List.cons_append, List.append_assoc, List.singleton_append]
        exact isCapturingAt_named n0 _ (by simpa using he) (by simpa using hx)
      have h := scanCapGroup ('?' :: '<' :: ((n0 :: nm2) ++ ['>'])) hpre inner
        (scanT inner hwfT) rest groups stack index brackets hb hcap
      simp only [List.cons_append, List.append_assoc, List.singleton_append]
        at h
      simp only [renderE, topIdxE, numCapsE, List.cons_append,
        List.append_assoc, List.singleton_append]
      exact h
  | .ncg inner, hwf, rest, groups, stack, index, brackets, hb => by
    simp only [wfE] at hwf
    have hcap : isCapturingAt ('(' :: (('?' :: [':'])
        ++ (renderT inner ++ (')' :: rest)))) = false := by
      simp only [List.cons_append, List.singleton_append]
      exact isCapturingAt_q ':' _ (by decide)
    have h := scanNCGroup ('?' :: [':']) (by decide) inner (scanT inner hwf)
      rest groups stack index brackets hb hcap
    simp only [List.cons_append, List.singleton_append] at h
    simp only [renderE, topIdxE, numCapsE, List.cons_append,
      List.append_assoc, List.singleton_append]
    exact h
  | .lka neg inner, hwf, rest, groups, stack, index, brackets, hb => by
    simp only [wfE] at hwf
    cases neg with
    | false =>
      have hcap : isCapturingAt ('(' :: (('?' :: ['='])
          ++ (renderT inner ++ (')' :: rest)))) = false := by
        simp only [List.cons_append, List.singleton_append]
        exact isCapturingAt_q '=' _ (by decide)
      have h := scanNCGroup ('?' :: ['=']) (by decide) inner (scanT inner hwf)
        rest groups stack index brackets hb hcap
      simp only [List.cons_append, List.singleton_append] at h
      simp only [renderE, topIdxE, numCapsE, List.cons_append,
        List.append_assoc, List.singleton_append, if_false]
      exact h
    | true =>
      have hcap : isCapturingAt ('(' :: (('?' :: ['!'])
          ++ (renderT inner ++ (')' :: rest)))) = false := by
        simp only [List.cons_append, List.singleton_append]
        exact isCapturingAt_q '!' _ (by decide)
      have h := scanNCGroup ('?' :: ['!']) (by decide) inner (scanT inner hwf)
        rest groups stack index brackets hb hcap
      simp only [List.cons_append, List.singleton_append] at h
      simp only [renderE, topIdxE, numCapsE, List.cons_append,
        List.append_assoc, List.singleton_append, if_true]
      exact h
  | .lkb neg inner, hwf, rest, groups, stack, index, brackets, hb => by
    simp only [wfE] at hwf
    cases neg with
    | false =>
      have hcap : isCapturingAt ('(' :: (('?' :: '<' :: ['='])
          ++ (renderT inner ++ (')' :: rest)))) = false := by
        simp only [List.cons_append, List.singleton_append]
        exact isCapturingAt_lkb '=' _ (Or.inl rfl)
      have h := scanNCGroup ('?' :: '<' :: ['=']) (by decide) inner
        (scanT inner hwf) rest groups stack index brackets hb hcap
      simp only [List.cons_append, List.singleton_append] at h
      simp only [renderE, topIdxE, numCapsE, List.cons_append,
        List.append_assoc, List.singleton_append, if_false]
      exact h
    | true =>
      have hcap : isCapturingAt ('(' :: (('?' :: '<' :: ['!'])
          ++ (renderT inner ++ (')' :: rest)))) = false := by
        simp only [List.cons_append, List.singleton_append]
        exact isCapturingAt_lkb '!' _ (Or.inr rfl)
      have h := scanNCGroup ('?' :: '<' :: ['!']) (by decide) inner
        (scanT inner hwf) rest groups stack index brackets hb hcap
      simp only [List.cons_append, List.singleton_append] at h
      simp only [renderE, topIdxE, numCapsE, List.cons_append,
        List.append_assoc, List.singleton_append, if_true]
      exact h

theorem scanT : ∀ (t : RTree), wfT t = true →
    ∀ (rest : List Char) (groups : List ℕ) (stack : List Bool) (index : ℕ)
      (brackets : ℤ), 0 ≤ brackets →
    collectLoop (renderT t ++ rest) groups stack index brackets false =
      collectLoop rest (groups ++ if brackets = 0 then topIdxT t index else [])
        stack (index + numCapsT t) brackets false
  | .eps, hwf, rest, groups, stack, index, brackets, hb => by
    simp only [renderT, topIdxT, numCapsT, List.nil_append, ite_self,
      List.append_nil, Nat.add_zero]
  | .cons e t, hwf, rest, groups, stack, index, brackets, hb => by
    simp only [wfT, Bool.and_eq_true] at hwf
    obtain ⟨hwfE, hwfT⟩ := hwf
    simp only [renderT, List.append_assoc]
    rw [scanE e hwfE (renderT t ++ rest) groups stack index brackets hb]
    rw [scanT t hwfT rest _ stack (index + numCapsE e) brackets hb]
    simp only [topIdxT, numCapsT]
    by_cases hbz : brackets = 0
    · simp only [if_pos hbz, List.append_assoc, Nat.add_assoc]
    · simp only [if_neg hbz, List.append_nil, Nat.add_assoc]

end


/-- C4: for every regular-expression source (well-formed as a sequence of
literals, escapes, character classes, capturing groups, named groups,
non-capturing groups and lookarounds), `collectRegexGroupIndexes` returns
exactly the runtime group indexes of the top-level capturing groups in
left-to-right textual order: every capturing open parenthesis (plain or
named, at any depth) advances the runtime numbering, a `(` inside `[...]` or
right after a backslash is not counted, and non-capturing groups and
lookarounds are excluded (while capturing groups inside them still count as
top level for the scan, matching `brackets`, which only tracks capturing
nesting). -/
theorem collectRegexGroupIndexes_spec (t : RTree) (hwf : wfT t = true) :
    collectRegexGroupIndexes (renderT t) = topIdxT t 1 := by
  rw [collectRegexGroupIndexes]
  have h := scanT t hwf [] [] [] 1 0 (le_refl 0)
  rw [List.append_nil] at h
  rw [h, if_pos rfl, List.nil_append]
  rfl

/-- The regex source `a\((b)[)(](c(d))(?:x(e))(?=f)(?<nm>g)` as a syntax
tree: an escaped paren, a class containing parens, a nested group, a group
inside a non-capturing group, a lookahead and a named group. -/
def regexExample : RTree :=
  .cons (.lit 'a') (.cons (.esc '(') (.cons (.grp (.cons (.lit 'b') .eps))
    (.cons (.cls [')', '(']) (.cons (.grp (.cons (.lit 'c')
      (.cons (.grp (.cons (.lit 'd') .eps)) .eps)))
    (.cons (.ncg (.cons (.lit 'x') (.cons (.grp (.cons (.lit 'e') .eps))
      .eps)))
    (.cons (.lka false (.cons (.lit 'f') .eps))
    (.cons (.named ['n', 'm'] (.cons (.lit 'g') .eps)) .eps)))))))

/-- Closed witness for C4: on `a\((b)[)(](c(d))(?:x(e))(?=f)(?<nm>g)` the
scan reports the top-level capturing groups 1 (`(b)`), 2 (`(c(d))`),
4 (`(e)`, inside the non-capturing group, numbered after the nested `(d)`)
and 5 (the named group), ignoring the escaped and in-class parentheses and
the lookahead. -/
theorem collectRegexGroupIndexes_spec_witness :
    wfT regexExample = true ∧
    renderT regexExample =
      "a\\((b)[)(](c(d))(?:x(e))(?=f)(?<nm>g)".toList ∧
    collectRegexGroupIndexes
      "a\\((b)[)(](c(d))(?:x(e))(?=f)(?<nm>g)".toList = [1, 2, 4, 5] := by
  refine ⟨by decide, by decide, ?_⟩
  rw [show ("a\\((b)[)(](c(d))(?:x(e))(?=f)(?<nm>g)".toList) =
    renderT regexExample by decide]
  rw [collectRegexGroupIndexes_spec regexExample (by decide)]
  decide


end MarkJS
